import Mathlib

/-!
Verification of the retrieval pipeline of the RAG-v1 repository.

The development shallowly embeds the retrieval core:
`performRRF`, `searchKeyword`'s empty-query guard, the rerank gateway
(`rerankResults`, in both of its source variants), the fallback merge inside
`queryKnowledge`, both variants of `enrichWithParentContext`, the
`QueryClassifier`, the `EmbeddingCache`, and `generateEmbedding`.
External collaborators (the SQL store, the embedding provider, and the
relevance judge) are modelled as oracles: functions or values supplied as
parameters, since their behaviour is outside the program.  JavaScript `Map`
objects are modelled as insertion-ordered association lists, floating-point
scores as rationals, and `Array.prototype.sort` (stable since ES2019) as
Mathlib's stable `List.insertionSort`.
-/

/-- Characters treated as whitespace by the JavaScript regex class `\s`
(restricted to the ASCII range, which is all the pipeline's inputs use). -/
def isWsChar (c : Char) : Bool :=
  c = ' ' || c = '\t' || c = '\n' || c = '\r' || c = '\x0b' || c = '\x0c'

/-- Word characters, the JavaScript regex class `\w` = `[A-Za-z0-9_]`. -/
def isWordChar (c : Char) : Bool :=
  ('a' ≤ c && c ≤ 'z') || ('A' ≤ c && c ≤ 'Z') || ('0' ≤ c && c ≤ '9') || c = '_'

/-- JavaScript `String.prototype.trim`: drop leading and trailing whitespace. -/
def trimChars (s : List Char) : List Char :=
  ((s.dropWhile isWsChar).reverse.dropWhile isWsChar).reverse

/-- A row returned by either search branch: the fields of
`knowledge_base_chunks` that the retrieval pipeline reads.  `metadata` is an
open bag; the pipeline only inspects `metadata.type`, kept here as `mtype`,
with the rest of the bag opaque in `meta`. -/
structure Doc where
  id : String
  content : String
  mtype : Option String
  parentid : Option String
  meta : String
deriving DecidableEq, Repr

instance : Inhabited Doc := ⟨⟨"", "", none, none, ""⟩⟩

/-- Lookup in a JavaScript `Map`, modelled as an insertion-ordered
association list (`Map.prototype.get`). -/
def mapGet {α : Type} : List (String × α) → String → Option α
  | [], _ => none
  | p :: rest, k => if p.1 = k then some p.2 else mapGet rest k

/-- JavaScript `Map.prototype.set`: update in place when the key is present
(keeping its insertion position), otherwise append at the end. -/
def mapSet {α : Type} (m : List (String × α)) (k : String) (v : α) :
    List (String × α) :=
  if m.any (fun p => p.1 = k) then
    m.map (fun p => if p.1 = k then (k, v) else p)
  else m ++ [(k, v)]

/-- One step of `performRRF`'s score accumulation:
`scores.set(doc.id, (scores.get(doc.id) || 0) + (1 / (k + index + 1)))`
with the RRF constant `k = 60`. -/
def rrfStep (m : List (String × ℚ)) (p : ℕ × Doc) : List (String × ℚ) :=
  mapSet m p.2.id ((mapGet m p.2.id).getD 0 + 1 / (60 + (p.1 : ℚ) + 1))

/-- The `scores` map built by `performRRF`: vector results processed first,
then keyword results, each contributing `1 / (60 + index + 1)`. -/
def rrfScores (vectorResults keywordResults : List Doc) : List (String × ℚ) :=
  (keywordResults.enum.foldl rrfStep (vectorResults.enum.foldl rrfStep []))

/-- One step of `performRRF`'s `docs` map for the vector branch:
`docs.set(doc.id, doc)` (unconditional). -/
def docStepV (m : List (String × Doc)) (d : Doc) : List (String × Doc) :=
  mapSet m d.id d

/-- One step of `performRRF`'s `docs` map for the keyword branch:
`if (!docs.has(doc.id)) docs.set(doc.id, doc)`. -/
def docStepK (m : List (String × Doc)) (d : Doc) : List (String × Doc) :=
  if m.any (fun p => p.1 = d.id) then m else m ++ [(d.id, d)]

/-- The `docs` map built by `performRRF`. -/
def rrfDocs (vectorResults keywordResults : List Doc) : List (String × Doc) :=
  keywordResults.foldl docStepK (vectorResults.foldl docStepV [])

/-- The ordering used by `performRRF`'s
`.sort(([, scoreA], [, scoreB]) => scoreB - scoreA)`: descending by score.
A stable sort under this relation keeps insertion order on ties. -/
def byScoreDesc (a b : String × ℚ) : Prop := b.2 ≤ a.2

instance : DecidableRel byScoreDesc := fun a b => by
  unfold byScoreDesc; infer_instance

instance : IsTotal (String × ℚ) byScoreDesc :=
  ⟨fun a b => le_total b.2 a.2⟩

instance : IsTrans (String × ℚ) byScoreDesc :=
  ⟨fun _ _ _ h1 h2 => le_trans h2 h1⟩

/-- `performRRF` from `retrieval.service.ts`: build the score and doc maps,
sort the score entries descending (stably), truncate to `limit`, and map each
id back to its stored record. -/
def performRRF (vectorResults keywordResults : List Doc) (limit : ℕ) :
    List Doc :=
  let scores := rrfScores vectorResults keywordResults
  let docs := rrfDocs vectorResults keywordResults
  ((scores.insertionSort byScoreDesc).take limit).map
    (fun p => (mapGet docs p.1).getD default)

/-- Specification-side fusion score: the sum over the branch lists containing
the id of `1 / (60 + rank + 1)`, where `rank` is the id's zero-based position
in that branch's list. -/
def rrfSpecScore (vectorResults keywordResults : List Doc) (id : String) : ℚ :=
  (if id ∈ vectorResults.map Doc.id then
    1 / (60 + ((vectorResults.map Doc.id).indexOf id : ℚ) + 1) else 0) +
  (if id ∈ keywordResults.map Doc.id then
    1 / (60 + ((keywordResults.map Doc.id).indexOf id : ℚ) + 1) else 0)

/-- Specification-side insertion order of the fused id set: the vector-branch
ids in vector order, then the keyword-only ids in keyword order. -/
def rrfKeys (vectorResults keywordResults : List Doc) : List String :=
  vectorResults.map Doc.id ++
    (keywordResults.map Doc.id).filter (fun i => i ∉ vectorResults.map Doc.id)

/-- The candidate-selection step of `queryKnowledge`:
`rerankedIds.map(id => topCandidates.find(doc => doc.id === id))
.filter(doc => doc !== undefined)`. -/
def selectReranked (rerankedIds : List String) (topCandidates : List Doc) :
    List Doc :=
  rerankedIds.filterMap (fun i => topCandidates.find? (fun d => d.id = i))

/-- The fallback fill loop of `queryKnowledge`: walk the fused candidates,
breaking once `limit` results are collected, skipping ids already included,
appending the rest. -/
def fillLoop : List Doc → List Doc → List String → ℕ → List Doc
  | [], acc, _, _ => acc
  | d :: ds, acc, seen, limit =>
    if limit ≤ acc.length then acc
    else if d.id ∈ seen then fillLoop ds acc seen limit
    else fillLoop ds (acc ++ [d]) (d.id :: seen) limit

/-- The fallback merge of `queryKnowledge`: keep the reranked candidates that
resolve in the fused list, and when fewer than `limit` were obtained, fill the
remaining slots from the fused list in fused order, skipping ids already
included. -/
def mergeReranked (rerankedIds : List String) (topCandidates : List Doc)
    (limit : ℕ) : List Doc :=
  let finalResults := selectReranked rerankedIds topCandidates
  if finalResults.length < limit then
    fillLoop topCandidates finalResults (finalResults.map Doc.id) limit
  else finalResults

/-- Outcome of the external relevance judge as seen by the rerank gateway
after its own response handling: `.throw` when the model call raises or the
(code-fence-stripped) response fails to parse as JSON, `.arr` when it parses
to an array of id strings.  The call, the fence stripping, and `JSON.parse`
live outside the embedded logic, so they are abstracted as this oracle. -/
inductive JudgeOutcome where
  | throw : JudgeOutcome
  | arr : List String → JudgeOutcome
deriving DecidableEq, Repr

/-- `rerankResults` from `utils/gemini.ts` (the validating gateway): drop
returned ids not present among the candidate ids, fall back to the first
`topN` candidate ids when no valid id remains or the call/parse failed,
otherwise return the first `topN` validated ids. -/
def rerankResults (outcome : JudgeOutcome) (documents : List Doc)
    (topN : ℕ) : List String :=
  match outcome with
  | .throw => (documents.take topN).map Doc.id
  | .arr parsed =>
    let validatedIds := parsed.filter (fun i => i ∈ documents.map Doc.id)
    if validatedIds = [] then (documents.take topN).map Doc.id
    else validatedIds.take topN

/-- The earlier `rerankResults` variant (second `gemini.ts` version in the
repository): it returns the parsed ids as they are, with no membership
validation, no zero-valid fallback and no truncation; only a thrown call or
parse failure falls back to the first `topN` candidate ids. -/
def rerankResultsLegacy (outcome : JudgeOutcome) (documents : List Doc)
    (topN : ℕ) : List String :=
  match outcome with
  | .throw => (documents.take topN).map Doc.id
  | .arr parsed => parsed

/-- A retrieval result after parent-context enrichment: the original record
plus the optional `parent_content` / `parent_metadata` fields that
enrichment attaches. -/
structure Enriched where
  doc : Doc
  parent_content : Option String
  parent_metadata : Option String
deriving DecidableEq, Repr

/-- The chunk store's point lookup by id (`SELECT content, metadata FROM
knowledge_base_chunks WHERE id = $1`), as an oracle: id to optional
(content, metadata). -/
def Store : Type := String → Option (String × String)

/-- One iteration of the per-result `enrichWithParentContext` of
`retrieval.service.ts`: for a child chunk with a parent id, query the store
(counted), attach the parent's content and metadata when the row resolves,
and pass the result through otherwise. -/
def enrichStep (store : Store) (acc : List Enriched × ℕ) (r : Doc) :
    List Enriched × ℕ :=
  match r.mtype, r.parentid with
  | some t, some p =>
    if t = "child" then
      match store p with
      | some cm => (acc.1 ++ [⟨r, some cm.1, some cm.2⟩], acc.2 + 1)
      | none => (acc.1 ++ [⟨r, none, none⟩], acc.2 + 1)
    else (acc.1 ++ [⟨r, none, none⟩], acc.2)
  | _, _ => (acc.1 ++ [⟨r, none, none⟩], acc.2)

/-- `enrichWithParentContext` from `src/src/services/retrieval.service.ts`:
a loop over the results issuing one store query per child chunk.  The second
component counts the store queries issued. -/
def enrichWithParentContext (results : List Doc) (store : Store) :
    List Enriched × ℕ :=
  results.foldl (enrichStep store) ([], 0)

/-- First-occurrence deduplication, the order `[...new Set(xs)]` keeps. -/
def firstDedup : List String → List String
  | [] => []
  | x :: xs => x :: firstDedup (xs.filter (fun y => y ≠ x))
termination_by l => l.length
decreasing_by
  simp only [List.length_cons]
  exact Nat.lt_succ_of_le (List.length_filter_le _ _)

/-- The distinct parent ids collected by the batched enricher:
`[...new Set(results.filter(r => r.metadata?.type === 'child' &&
r.parentid).map(r => r.parentid))]`. -/
def childParentIds (results : List Doc) : List String :=
  firstDedup (results.filterMap
    (fun r => if r.mtype = some "child" then r.parentid else none))

/-- The batched `enrichWithParentContext` (second retrieval-service variant):
collect the distinct parent ids, return unchanged with no store query when
there are none, otherwise issue one batched lookup (`WHERE id = ANY($1)`,
modelled as the store filtered over the id list), build the parent map, and
attach parent content and metadata to each child whose parent resolved.  The
second component counts the store queries issued. -/
def enrichWithParentContextB (results : List Doc) (store : Store) :
    List Enriched × ℕ :=
  let parentIds := childParentIds results
  if parentIds = [] then (results.map (fun r => ⟨r, none, none⟩), 0)
  else
    let parentMap := parentIds.filterMap
      (fun p => (store p).map (fun cm => (p, cm)))
    (results.map (fun r =>
      match r.mtype, r.parentid with
      | some t, some p =>
        if t = "child" then
          match mapGet parentMap p with
          | some cm => ⟨r, some cm.1, some cm.2⟩
          | none => ⟨r, none, none⟩
        else ⟨r, none, none⟩
      | _, _ => ⟨r, none, none⟩), 1)

/-- Specification-side description of enrichment of one result: a child
with a resolvable parent id receives the parent's content and metadata, an
orphan or non-child passes through unenriched. -/
def enrichExpected (store : Store) (r : Doc) : Enriched :=
  match r.mtype, r.parentid with
  | some t, some p =>
    if t = "child" then
      match store p with
      | some cm => ⟨r, some cm.1, some cm.2⟩
      | none => ⟨r, none, none⟩
    else ⟨r, none, none⟩
  | _, _ => ⟨r, none, none⟩

/-- Matching a literal word at the head of the text: `some rest` when `s`
starts with `w`. -/
def startsWithLit : List Char → List Char → Option (List Char)
  | [], s => some s
  | _ :: _, [] => none
  | a :: ws, b :: ss => if a = b then startsWithLit ws ss else none

/-- Matching `cls+` (one or more characters of a class) at the head of the
text, consuming the maximal run.  The classifier's patterns only follow such
a run with a character outside the class (a literal after `\s+`, whitespace
after `\w+`), so the maximal munch is equivalent to the regex backtracking
semantics. -/
def munch1 (p : Char → Bool) : List Char → Option (List Char)
  | [] => none
  | c :: cs => if p c then some (cs.dropWhile p) else none

/-- Matching an alternation of literal words followed by a continuation. -/
def anyLitThen (ws : List String) (s : List Char) (k : List Char → Bool) :
    Bool :=
  ws.any (fun w =>
    match startsWithLit w.data s with
    | some r => k r
    | none => false)

/-- Pattern 1 of `QueryClassifier.classify`:
`/^(who|what|where|when|which)\s+(is|are|was|were|did)/i` on the lowercased,
trimmed query. -/
def matchesFactual (s : List Char) : Bool :=
  anyLitThen ["who", "what", "where", "when", "which"] s (fun r =>
    match munch1 isWsChar r with
    | some r2 =>
      anyLitThen ["is", "are", "was", "were", "did"] r2 (fun _ => true)
    | none => false)

/-- Pattern 2 anchored at one position:
`what\s+(did|does|has)\s+\w+\s+(say|said|tell|told|speak|spoke)`. -/
def matchesDialogueAt (s : List Char) : Bool :=
  match startsWithLit "what".data s with
  | none => false
  | some r1 =>
    match munch1 isWsChar r1 with
    | none => false
    | some r2 =>
      anyLitThen ["did", "does", "has"] r2 (fun r3 =>
        match munch1 isWsChar r3 with
        | none => false
        | some r4 =>
          match munch1 isWordChar r4 with
          | none => false
          | some r5 =>
            match munch1 isWsChar r5 with
            | none => false
            | some r6 =>
              anyLitThen ["say", "said", "tell", "told", "speak", "spoke"] r6
                (fun _ => true))

/-- Pattern 2 of `QueryClassifier.classify` (unanchored substring match). -/
def matchesDialogue (s : List Char) : Bool :=
  s.tails.any matchesDialogueAt

/-- Unanchored literal substring match, the semantics of an unanchored
regex of plain alternatives. -/
def containsLit (w : String) (s : List Char) : Bool :=
  s.tails.any (fun t => (startsWithLit w.data t).isSome)

/-- Whether any of the listed literal words occurs in the text. -/
def anyContains (ws : List String) (s : List Char) : Bool :=
  ws.any (fun w => containsLit w s)

/-- Pattern 3: `/(quote|dialogue|conversation|verse|spoke|said to|told)/i`. -/
def matchesQuoteRelated (s : List Char) : Bool :=
  anyContains ["quote", "dialogue", "conversation", "verse", "spoke",
    "said to", "told"] s

/-- Pattern 4: `/(explain|why|how|interpret|mean|significance|symbolize)/i`. -/
def matchesExplanation (s : List Char) : Bool :=
  anyContains ["explain", "why", "how", "interpret", "mean", "significance",
    "symbolize"] s

/-- Pattern 5: `/(background|context|history|family|lineage|descendant)/i`. -/
def matchesBackground (s : List Char) : Bool :=
  anyContains ["background", "context", "history", "family", "lineage",
    "descendant"] s

/-- Pattern 6: `/(character|person|warrior|king|queen|sage)/i`. -/
def matchesCharacter (s : List Char) : Bool :=
  anyContains ["character", "person", "warrior", "king", "queen", "sage"] s

/-- Pattern 7: `/(analyze|compare|contrast|relationship|symbolism)/i`. -/
def matchesAnalysis (s : List Char) : Bool :=
  anyContains ["analyze", "compare", "contrast", "relationship",
    "symbolism"] s

/-- `query.toLowerCase().trim()` (ASCII lowering), as a character list. -/
def lowerTrim (q : String) : List Char :=
  trimChars (q.data.map Char.toLower)

/-- The confidence labels of `QueryClassifier.classify`. -/
inductive Confidence where
  | high : Confidence
  | medium : Confidence
  | low : Confidence
deriving DecidableEq, Repr

/-- The record `QueryClassifier.classify` returns; `categoryWeights` is
flattened into the three known category fields. -/
structure QueryClassification where
  primaryCategory : Option String
  encyclopedia : ℚ
  scripture : ℚ
  commentary : ℚ
  confidence : Confidence
  queryType : String
deriving DecidableEq, Repr

/-- The weight-and-label outcome of the classifier's rule chain:
(encyclopedia, scripture, commentary, confidence, queryType). -/
def RuleOutcome : Type := ℚ × ℚ × ℚ × Confidence × String

/-- The ordered if/else rule chain of `QueryClassifier.classify`, run on the
lowercased trimmed query: the first matching pattern assigns its fixed weight
triple (encyclopedia, scripture, commentary), confidence and query type; the
default is equal weights with low confidence. -/
def classifyChain (n : List Char) : RuleOutcome :=
  if matchesFactual n then (1.5, 0.5, 0.3, Confidence.high, "factual")
  else if matchesDialogue n then (0.3, 1.5, 0.5, Confidence.high, "dialogue")
  else if matchesQuoteRelated n then
    (0.2, 1.4, 0.4, Confidence.medium, "quote-related")
  else if matchesExplanation n then
    (0.5, 0.3, 1.5, Confidence.high, "explanation")
  else if matchesBackground n then
    (1.3, 0.3, 0.4, Confidence.medium, "background")
  else if matchesCharacter n then
    (1.2, 0.8, 0.3, Confidence.medium, "character")
  else if matchesAnalysis n then
    (0.4, 0.3, 1.3, Confidence.medium, "analysis")
  else (1, 1, 1, Confidence.low, "general")

/-- The tail of `QueryClassifier.classify`: fill `primaryCategory`, only for
high or medium confidence, by comparing each weight against the maximum in
the fixed order encyclopedia, scripture, commentary. -/
def buildClassification : RuleOutcome → QueryClassification
  | (e, s, c, conf, qt) =>
    { primaryCategory :=
        if conf = Confidence.high ∨ conf = Confidence.medium then
          if e = max e (max s c) then some "encyclopedia"
          else if s = max e (max s c) then some "scripture"
          else if c = max e (max s c) then some "commentary"
          else none
        else none
      encyclopedia := e
      scripture := s
      commentary := c
      confidence := conf
      queryType := qt }

/-- `QueryClassifier.classify` from `utils/query-classifier.ts`. -/
def classify (query : String) : QueryClassification :=
  buildClassification (classifyChain (lowerTrim query))

/-- Specification-side rule table: each heuristic with its fixed weight
triple, confidence and query type, in source order. -/
def classifierRules : List ((List Char → Bool) × RuleOutcome) :=
  [(matchesFactual, 1.5, 0.5, 0.3, Confidence.high, "factual"),
   (matchesDialogue, 0.3, 1.5, 0.5, Confidence.high, "dialogue"),
   (matchesQuoteRelated, 0.2, 1.4, 0.4, Confidence.medium, "quote-related"),
   (matchesExplanation, 0.5, 0.3, 1.5, Confidence.high, "explanation"),
   (matchesBackground, 1.3, 0.3, 0.4, Confidence.medium, "background"),
   (matchesCharacter, 1.2, 0.8, 0.3, Confidence.medium, "character"),
   (matchesAnalysis, 0.4, 0.3, 1.3, Confidence.medium, "analysis")]

/-- First-matching-rule semantics: the first rule whose test accepts the
query decides the outcome; the default applies when none does. -/
def firstMatchRule :
    List ((List Char → Bool) × RuleOutcome) → RuleOutcome → List Char →
      RuleOutcome
  | [], dflt, _ => dflt
  | (test, w) :: rest, dflt, s =>
    if test s then w else firstMatchRule rest dflt s

/-- Argmax of the weight triple with ties broken in the fixed priority
order encyclopedia, scripture, commentary. -/
def argmaxCategory (e s c : ℚ) : String :=
  if e = max e (max s c) then "encyclopedia"
  else if s = max e (max s c) then "scripture"
  else "commentary"

/-- Specification-side classifier: the first matching rule of the table wins
(equal weights, low confidence when none matches), and `primaryCategory` is
the weight argmax exactly when confidence is not low. -/
def classifySpec (query : String) : QueryClassification :=
  match firstMatchRule classifierRules (1, 1, 1, Confidence.low, "general")
      (lowerTrim query) with
  | (e, s, c, conf, qt) =>
    { primaryCategory :=
        if conf = Confidence.low then none else some (argmaxCategory e s c)
      encyclopedia := e
      scripture := s
      commentary := c
      confidence := conf
      queryType := qt }

/-- `query.replace(/[|&:*!]/g, ' ')`: the search-operator metacharacters
replaced by spaces. -/
def replaceMeta (s : List Char) : List Char :=
  s.map (fun c =>
    if c = '|' ∨ c = '&' ∨ c = ':' ∨ c = '*' ∨ c = '!' then ' ' else c)

/-- Splitting on whitespace runs (the nonempty-input behaviour of JavaScript
`split(/\s+/)` on trimmed text). -/
def splitWsRuns : List Char → List (List Char)
  | [] => []
  | c :: cs =>
    if isWsChar c then splitWsRuns (cs.dropWhile isWsChar)
    else (c :: cs.takeWhile (fun d => !isWsChar d)) ::
      splitWsRuns (cs.dropWhile (fun d => !isWsChar d))
termination_by l => l.length
decreasing_by
  · simp only [List.length_cons]
    exact Nat.lt_succ_of_le (List.Sublist.length_le (List.dropWhile_sublist _))
  · simp only [List.length_cons]
    exact Nat.lt_succ_of_le (List.Sublist.length_le (List.dropWhile_sublist _))

/-- JavaScript `split(/\s+/)` on trimmed text: the empty string yields a
one-element list holding the empty string. -/
def splitJS (s : List Char) : List (List Char) :=
  if s = [] then [[]] else splitWsRuns s

/-- The `cleanQuery` of `searchKeyword`:
`query.replace(/[|&:*!]/g, ' ').trim().split(/\s+/).join(' & ')`. -/
def cleanQuery (query : String) : List Char :=
  List.intercalate [' ', '&', ' ']
    (splitJS (trimChars (replaceMeta query.data)))

/-- `searchKeyword` from `retrieval.service.ts`, with the ranked full-text
rows supplied by the store oracle: the guard `if (!cleanQuery) return [];`
returns the empty list before any store query; the Boolean records whether
the store was queried. -/
def searchKeyword (query : String) (storeResults : List Doc) :
    Bool × List Doc :=
  if cleanQuery query = [] then (false, [])
  else (true, storeResults)

/-- The state of the `EmbeddingCache` of `utils/gemini.ts`: insertion-ordered
entries of key, embedding and storage timestamp (milliseconds).  The SHA-256
key derivation is outside the embedded logic; the cache is modelled keyed by
the normalized text itself, which changes no size or expiry behaviour. -/
abbrev CacheState : Type := List (String × (List ℚ × ℤ))

/-- JavaScript `Map.prototype.delete`. -/
def mapDelete {α : Type} (m : List (String × α)) (k : String) :
    List (String × α) :=
  m.filter (fun p => p.1 ≠ k)

/-- `EmbeddingCache.get`: a missing key yields null; an entry older than the
TTL is deleted and yields null; otherwise the embedding is returned. -/
def cacheGet (c : CacheState) (ttlMs : ℤ) (text : String) (now : ℤ) :
    Option (List ℚ) × CacheState :=
  match mapGet c text with
  | none => (none, c)
  | some e => if ttlMs < now - e.2 then (none, mapDelete c text)
      else (some e.1, c)

/-- `EmbeddingCache.set`: when the cache is full the first key in insertion
order (the oldest entry) is deleted, then the entry is stored. -/
def cacheSet (c : CacheState) (maxSize : ℕ) (text : String) (emb : List ℚ)
    (now : ℤ) : CacheState :=
  let c1 := if maxSize ≤ c.length then
      (match c with
       | [] => c
       | p :: _ => mapDelete c p.1)
    else c
  mapSet c1 text (emb, now)

/-- One cache operation: a `get` or a `set` at some clock reading. -/
inductive CacheOp where
  | get : String → ℤ → CacheOp
  | set : String → List ℚ → ℤ → CacheOp

/-- Apply one operation to the cache state. -/
def cacheStep (maxSize : ℕ) (ttl : ℤ) (c : CacheState) : CacheOp → CacheState
  | CacheOp.get t now => (cacheGet c ttl t now).2
  | CacheOp.set t emb now => cacheSet c maxSize t emb now

/-- Run a sequence of operations against an initially empty cache. -/
def runCache (maxSize : ℕ) (ttl : ℤ) (ops : List CacheOp) : CacheState :=
  ops.foldl (cacheStep maxSize ttl) []

/-- `text.replace(/\n{3,}/g, '\n\n')`: collapse runs of three or more
newlines to a double newline. -/
def collapseNL : List Char → List Char
  | [] => []
  | c :: rest =>
    if c = '\n' then
      (if 3 ≤ (rest.takeWhile (fun d => d = '\n')).length + 1 then ['\n', '\n']
       else List.replicate ((rest.takeWhile (fun d => d = '\n')).length + 1) '\n') ++
        collapseNL (rest.dropWhile (fun d => d = '\n'))
    else c :: collapseNL rest
termination_by l => l.length
decreasing_by
  · simp only [List.length_cons]
    exact Nat.lt_succ_of_le (List.Sublist.length_le (List.dropWhile_sublist _))
  · simp only [List.length_cons]
    omega

/-- `replace(/[ \t]+/g, ' ')`: collapse runs of spaces and tabs to one
space. -/
def collapseSP : List Char → List Char
  | [] => []
  | c :: rest =>
    if c = ' ' ∨ c = '\t' then
      ' ' :: collapseSP (rest.dropWhile (fun d => d = ' ' || d = '\t'))
    else c :: collapseSP rest
termination_by l => l.length
decreasing_by
  · simp only [List.length_cons]
    exact Nat.lt_succ_of_le (List.Sublist.length_le (List.dropWhile_sublist _))
  · simp only [List.length_cons]
    omega

/-- `replace(/\n /g, '\n')`: remove a space directly after a newline
(left-to-right, non-overlapping, as JavaScript global replace scans). -/
def remSpaceAfterNL : List Char → List Char
  | '\n' :: ' ' :: rest => '\n' :: remSpaceAfterNL rest
  | c :: rest => c :: remSpaceAfterNL rest
  | [] => []
termination_by l => l.length

/-- `replace(/ \n/g, '\n')`: remove a space directly before a newline. -/
def remSpaceBeforeNL : List Char → List Char
  | ' ' :: '\n' :: rest => '\n' :: remSpaceBeforeNL rest
  | c :: rest => c :: remSpaceBeforeNL rest
  | [] => []
termination_by l => l.length

/-- `normalizeTextForEmbedding` from `utils/gemini.ts`: the four global
replaces followed by trim. -/
def normalizeTextForEmbedding (text : String) : String :=
  String.mk (trimChars (remSpaceBeforeNL (remSpaceAfterNL
    (collapseSP (collapseNL text.data)))))

/-- `generateEmbedding` from `utils/gemini.ts`: normalize the text, consult
the cache, call the provider on a miss (propagating a provider error by
rethrow), and store the fresh embedding.  The provider is an oracle: its one
call either yields a vector or an error. -/
def generateEmbedding (cache : CacheState) (provider : Except String (List ℚ))
    (now : ℤ) (text : String) : Except String (List ℚ × CacheState) :=
  let cleanText := normalizeTextForEmbedding text
  match cacheGet cache 3600000 cleanText now with
  | (some emb, c2) => Except.ok (emb, c2)
  | (none, c2) =>
    match provider with
    | Except.error e => Except.error e
    | Except.ok emb => Except.ok (emb, cacheSet c2 1000 cleanText emb now)

/-- The outcome of one `queryKnowledge` call: the returned (enriched)
results, and how many times the rerank gateway and the parent-context
enricher were invoked. -/
structure QKOut where
  res : List Enriched
  rerankCalls : ℕ
  enrichCalls : ℕ
deriving DecidableEq, Repr

/-- `queryKnowledge` from `retrieval.service.ts`: embed the query (a failure
rethrows to the caller), fuse the two branch results with RRF capped at
`limit * 2`, return `[]` before invoking the rerank gateway or the enricher
when fusion yields nothing, and otherwise rerank, apply the fallback merge,
and enrich.  The search branches, judge and store are oracles; the
classifier's category hint only parameterizes the branch oracles, so it is
not re-modelled here. -/
def queryKnowledge (cache : CacheState) (provider : Except String (List ℚ))
    (now : ℤ) (query : String) (vectorResults keywordResults : List Doc)
    (judge : JudgeOutcome) (store : Store) (limit : ℕ) :
    Except String QKOut :=
  match generateEmbedding cache provider now query with
  | Except.error e => Except.error e
  | Except.ok _ =>
    let combinedResults := performRRF vectorResults keywordResults (limit * 2)
    if combinedResults = [] then Except.ok ⟨[], 0, 0⟩
    else
      let rerankedIds := rerankResults judge combinedResults limit
      let finalResults := mergeReranked rerankedIds combinedResults limit
      Except.ok ⟨(enrichWithParentContext finalResults store).1, 1, 1⟩

lemma anyKey_iff_mem {α : Type} (m : List (String × α)) (k : String) :
    m.any (fun p => p.1 = k) = true ↔ k ∈ m.map Prod.fst := by
  rw [List.any_eq_true]
  constructor
  · rintro ⟨p, hp, hpk⟩
    exact List.mem_map.2 ⟨p, hp, by simpa using hpk⟩
  · intro hk
    rcases List.mem_map.1 hk with ⟨p, hp, hpk⟩
    exact ⟨p, hp, by simpa using hpk⟩

lemma mapSet_of_absent {α : Type} {m : List (String × α)} {k : String}
    (v : α) (h : (m.any (fun p => p.1 = k)) = false) :
    mapSet m k v = m ++ [(k, v)] := by
  simp [mapSet, h]

lemma mapSet_of_present {α : Type} {m : List (String × α)} {k : String}
    (v : α) (h : (m.any (fun p => p.1 = k)) = true) :
    mapSet m k v = m.map (fun p => if p.1 = k then (k, v) else p) := by
  simp [mapSet, h]

lemma mapGet_update_self {α : Type} {k : String} (v : α) :
    ∀ m : List (String × α), (m.any (fun p => p.1 = k)) = true →
      mapGet (m.map (fun p => if p.1 = k then (k, v) else p)) k = some v := by
  intro m
  induction m with
  | nil => simp
  | cons p rest ih =>
    intro hany
    by_cases hp : p.1 = k
    · simp [mapGet, hp]
    · have hm : (rest.any (fun q => q.1 = k)) = true := by
        rcases (List.any_eq_true).1 hany with ⟨q, hq, hqk⟩
        rcases List.mem_cons.1 hq with rfl | hq'
        · exact absurd (by simpa using hqk) hp
        · exact (List.any_eq_true).2 ⟨q, hq', hqk⟩
      simp only [List.map_cons, if_neg hp, mapGet, hp, if_false]
      exact ih hm

lemma mapGet_update_ne {α : Type} {k k' : String} (v : α) (h : k' ≠ k) :
    ∀ m : List (String × α),
      mapGet (m.map (fun p => if p.1 = k then (k, v) else p)) k' = mapGet m k' := by
  intro m
  induction m with
  | nil => simp [mapGet]
  | cons p rest ih =>
    by_cases hp : p.1 = k
    · have hpk' : ¬ p.1 = k' := by rw [hp]; exact fun hh => h hh.symm
      have hk : ¬ (k : String) = k' := fun hh => h hh.symm
      simp only [List.map_cons, if_pos hp, mapGet, hk, if_false, hpk', ih]
    · simp only [List.map_cons, if_neg hp, mapGet]
      by_cases hpk' : p.1 = k'
      · simp [hpk']
      · simp [hpk', ih]

lemma mapGet_append_self {α : Type} {k : String} (v : α) :
    ∀ m : List (String × α), (m.any (fun p => p.1 = k)) = false →
      mapGet (m ++ [(k, v)]) k = some v := by
  intro m
  induction m with
  | nil => simp [mapGet]
  | cons p rest ih =>
    intro hany
    have hp : ¬ p.1 = k := by
      intro hpk
      simp [List.any_cons, hpk] at hany
    have hm : (rest.any (fun q => q.1 = k)) = false := by
      rcases hr : rest.any (fun q => q.1 = k) with _ | _
      · rfl
      · simp [List.any_cons, hr] at hany
    simp only [List.cons_append, mapGet, hp, if_false]
    exact ih hm

lemma mapGet_append_ne {α : Type} {k k' : String} (v : α) (h : k' ≠ k) :
    ∀ m : List (String × α), mapGet (m ++ [(k, v)]) k' = mapGet m k' := by
  intro m
  induction m with
  | nil =>
    simp only [List.nil_append, mapGet]
    rw [if_neg (fun hh : k = k' => h hh.symm)]
  | cons p rest ih =>
    by_cases hpk' : p.1 = k'
    · simp [mapGet, hpk']
    · simp [mapGet, hpk', ih]

lemma mapGet_mapSet_self {α : Type} (m : List (String × α)) (k : String)
    (v : α) : mapGet (mapSet m k v) k = some v := by
  rcases hany : m.any (fun p => p.1 = k) with _ | _
  · rw [mapSet_of_absent v hany]
    exact mapGet_append_self v m hany
  · rw [mapSet_of_present v hany]
    exact mapGet_update_self v m hany

lemma mapGet_mapSet_ne {α : Type} (m : List (String × α)) (k k' : String)
    (v : α) (h : k' ≠ k) : mapGet (mapSet m k v) k' = mapGet m k' := by
  rcases hany : m.any (fun p => p.1 = k) with _ | _
  · rw [mapSet_of_absent v hany]
    exact mapGet_append_ne v h m
  · rw [mapSet_of_present v hany]
    exact mapGet_update_ne v h m

lemma foldl_rrfStep_getD (l : List Doc) :
    ∀ (n : ℕ) (m : List (String × ℚ)) (i : String),
      (l.map Doc.id).Nodup →
      (mapGet ((l.enumFrom n).foldl rrfStep m) i).getD 0 =
        (mapGet m i).getD 0 +
        (if i ∈ l.map Doc.id
         then 1 / (60 + (n : ℚ) + ((l.map Doc.id).indexOf i : ℚ) + 1)
         else 0) := by
  induction l with
  | nil => intro n m i _; simp
  | cons d ds ih =>
    intro n m i hnd
    have hnd0 : (d.id :: ds.map Doc.id).Nodup := by simpa using hnd
    have hnd' : (ds.map Doc.id).Nodup := (List.nodup_cons.1 hnd0).2
    have hdid : d.id ∉ ds.map Doc.id := (List.nodup_cons.1 hnd0).1
    rw [List.enumFrom_cons, List.foldl_cons, ih (n + 1) (rrfStep m (n, d)) i hnd']
    by_cases hid : i = d.id
    · have h1 : mapGet (rrfStep m (n, d)) i =
          some ((mapGet m i).getD 0 + 1 / (60 + (n : ℚ) + 1)) := by
        rw [hid]; exact mapGet_mapSet_self _ _ _
      have hdsmem : i ∉ ds.map Doc.id := by rw [hid]; exact hdid
      rw [h1, if_neg hdsmem]
      have h3 : i ∈ (d :: ds).map Doc.id := by simp [hid]
      rw [if_pos h3]
      have h4 : ((d :: ds).map Doc.id).indexOf i = 0 := by
        rw [List.map_cons, ← hid, List.indexOf_cons_self]
      rw [h4]
      simp only [Option.getD_some]
      push_cast
      ring
    · have h1 : mapGet (rrfStep m (n, d)) i = mapGet m i :=
        mapGet_mapSet_ne _ _ _ _ hid
      rw [h1]
      by_cases hmem : i ∈ ds.map Doc.id
      · rw [if_pos hmem]
        have hmem2 : i ∈ (d :: ds).map Doc.id := by simp [hmem]
        rw [if_pos hmem2]
        have h4 : ((d :: ds).map Doc.id).indexOf i =
            (ds.map Doc.id).indexOf i + 1 := by
          rw [List.map_cons, List.indexOf_cons_ne _ (fun h => hid h.symm)]
        rw [h4]
        push_cast
        ring
      · have hmem2 : i ∉ (d :: ds).map Doc.id := by
          simp only [List.map_cons, List.mem_cons]
          rintro (h | h)
          · exact hid h
          · exact hmem h
        rw [if_neg hmem, if_neg hmem2]

lemma rrfScores_getD (vec kw : List Doc) (hv : (vec.map Doc.id).Nodup)
    (hk : (kw.map Doc.id).Nodup) (i : String) :
    (mapGet (rrfScores vec kw) i).getD 0 = rrfSpecScore vec kw i := by
  unfold rrfScores rrfSpecScore
  rw [show vec.enum = vec.enumFrom 0 from rfl, show kw.enum = kw.enumFrom 0 from rfl]
  rw [foldl_rrfStep_getD kw 0 _ i hk, foldl_rrfStep_getD vec 0 [] i hv]
  have h0 : (mapGet ([] : List (String × ℚ)) i).getD 0 = 0 := rfl
  rw [h0]
  split_ifs <;> push_cast <;> ring

lemma mapSet_keys {α : Type} (m : List (String × α)) (k : String) (v : α) :
    (mapSet m k v).map Prod.fst =
      if m.any (fun p => p.1 = k) = true then m.map Prod.fst
      else m.map Prod.fst ++ [k] := by
  by_cases h : m.any (fun p => p.1 = k) = true
  · rw [if_pos h, mapSet_of_present v h, List.map_map]
    apply List.map_congr_left
    intro p _
    by_cases hp : p.1 = k
    · simp [hp]
    · simp [hp]
  · simp only [Bool.not_eq_true] at h
    rw [if_neg (by simp [h]), mapSet_of_absent v h]
    simp

lemma any_key_congr {α β : Type} {m : List (String × α)} {m2 : List (String × β)}
    (h : m.map Prod.fst = m2.map Prod.fst) (i : String) :
    m.any (fun p => p.1 = i) = m2.any (fun p => p.1 = i) := by
  rcases h2 : m2.any (fun p => p.1 = i) with _ | _
  · rcases h1 : m.any (fun p => p.1 = i) with _ | _
    · rfl
    · exfalso
      have := (anyKey_iff_mem m i).1 h1
      rw [h] at this
      rw [← anyKey_iff_mem m2 i] at this
      rw [h2] at this
      exact Bool.false_ne_true this
  · have := (anyKey_iff_mem m2 i).1 h2
    rw [← h] at this
    exact (anyKey_iff_mem m i).2 this

lemma foldl_rrfStep_keys (l : List Doc) :
    ∀ (n : ℕ) (m : List (String × ℚ)),
      (l.map Doc.id).Nodup →
      (((l.enumFrom n).foldl rrfStep m).map Prod.fst) =
        m.map Prod.fst ++
          (l.map Doc.id).filter (fun i => !(m.any (fun p => p.1 = i))) := by
  induction l with
  | nil => intro n m _; simp
  | cons d ds ih =>
    intro n m hnd
    have hnd0 : (d.id :: ds.map Doc.id).Nodup := by simpa using hnd
    have hnd' : (ds.map Doc.id).Nodup := (List.nodup_cons.1 hnd0).2
    have hdid : d.id ∉ ds.map Doc.id := (List.nodup_cons.1 hnd0).1
    rw [List.enumFrom_cons, List.foldl_cons, ih (n + 1) (rrfStep m (n, d)) hnd']
    by_cases h : m.any (fun p => p.1 = d.id) = true
    · have hkeys : (rrfStep m (n, d)).map Prod.fst = m.map Prod.fst := by
        unfold rrfStep
        rw [mapSet_keys, if_pos h]
      rw [hkeys]
      have hfil : (ds.map Doc.id).filter
            (fun i => !((rrfStep m (n, d)).any (fun p => p.1 = i))) =
          (ds.map Doc.id).filter (fun i => !(m.any (fun p => p.1 = i))) := by
        apply List.filter_congr
        intro i _
        rw [any_key_congr hkeys i]
      rw [hfil, List.map_cons, List.filter_cons]
      simp only [h, Bool.not_true, Bool.false_eq_true, if_false]
    · have hb : m.any (fun p => p.1 = d.id) = false := by
        simp only [Bool.not_eq_true] at h; exact h
      have hkeys : (rrfStep m (n, d)).map Prod.fst = m.map Prod.fst ++ [d.id] := by
        unfold rrfStep
        rw [mapSet_keys, if_neg h]
      rw [hkeys]
      have hfil : (ds.map Doc.id).filter
            (fun i => !((rrfStep m (n, d)).any (fun p => p.1 = i))) =
          (ds.map Doc.id).filter (fun i => !(m.any (fun p => p.1 = i))) := by
        apply List.filter_congr
        intro i hi
        have hne : ¬ d.id = i := fun hh => hdid (hh ▸ hi)
        have : (rrfStep m (n, d)).any (fun p => p.1 = i) =
            m.any (fun p => p.1 = i) := by
          rcases h2 : m.any (fun p => p.1 = i) with _ | _
          · rcases h3 : (rrfStep m (n, d)).any (fun p => p.1 = i) with _ | _
            · rfl
            · exfalso
              have hmem := (anyKey_iff_mem _ i).1 h3
              rw [hkeys, List.mem_append] at hmem
              rcases hmem with hm1 | hm2
              · have := (anyKey_iff_mem m i).2 hm1
                rw [h2] at this
                exact Bool.false_ne_true this
              · exact hne (by simpa using hm2 : i = d.id).symm
          · have hmem := (anyKey_iff_mem m i).1 h2
            exact (anyKey_iff_mem _ i).2 (by rw [hkeys]; exact List.mem_append_left _ hmem)
        rw [this]
      rw [hfil, List.map_cons, List.filter_cons]
      simp only [hb, Bool.not_false, if_true, List.append_assoc, List.singleton_append]

lemma rrfScores_keys (vec kw : List Doc) (hv : (vec.map Doc.id).Nodup)
    (hk : (kw.map Doc.id).Nodup) :
    (rrfScores vec kw).map Prod.fst = rrfKeys vec kw := by
  unfold rrfScores rrfKeys
  rw [show vec.enum = vec.enumFrom 0 from rfl, show kw.enum = kw.enumFrom 0 from rfl]
  rw [foldl_rrfStep_keys kw 0 _ hk]
  have h1 : ((vec.enumFrom 0).foldl rrfStep []).map Prod.fst = vec.map Doc.id := by
    rw [foldl_rrfStep_keys vec 0 [] hv]
    simp
  rw [h1]
  congr 1
  apply List.filter_congr
  intro i _
  have h2 : ((vec.enumFrom 0).foldl rrfStep []).any (fun p => p.1 = i) =
      decide (i ∈ vec.map Doc.id) := by
    rcases hdec : decide (i ∈ vec.map Doc.id) with _ | _
    · have hni : i ∉ vec.map Doc.id := of_decide_eq_false hdec
      rcases h3 : ((vec.enumFrom 0).foldl rrfStep []).any (fun p => p.1 = i) with _ | _
      · rfl
      · exact absurd (h1 ▸ (anyKey_iff_mem _ i).1 h3) hni
    · have hyi : i ∈ vec.map Doc.id := of_decide_eq_true hdec
      exact (anyKey_iff_mem _ i).2 (h1 ▸ hyi)
  rw [h2]
  simp only [decide_not]

lemma rrfKeys_nodup (vec kw : List Doc) (hv : (vec.map Doc.id).Nodup)
    (hk : (kw.map Doc.id).Nodup) : (rrfKeys vec kw).Nodup := by
  unfold rrfKeys
  refine List.Nodup.append hv (List.Nodup.filter _ hk) ?_
  intro i hi1 hi2
  have := List.of_mem_filter hi2
  exact (of_decide_eq_true this) hi1

/-- C1: the fusion score assigned by `performRRF` (entry of its `scores` map,
absent ids scoring 0) equals the sum over the branch lists containing the id
of `1 / (60 + rank + 1)` with `rank` the zero-based position in that branch;
consequently an id at position `r` in both lists scores `2 / (61 + r)`, an id
at position `r` in exactly one list scores `1 / (61 + r)`, and the former is
strictly greater.  The hypotheses state that each branch list carries
pairwise-distinct ids, which holds for the SQL branch results (rows of
`knowledge_base_chunks` keyed by `id`). -/
theorem performRRF_fusion_score (vec kw : List Doc)
    (hv : (vec.map Doc.id).Nodup) (hk : (kw.map Doc.id).Nodup) :
    (∀ i : String,
      (mapGet (rrfScores vec kw) i).getD 0 = rrfSpecScore vec kw i) ∧
    (∀ (i : String) (r : ℕ), i ∈ vec.map Doc.id → i ∈ kw.map Doc.id →
      (vec.map Doc.id).indexOf i = r → (kw.map Doc.id).indexOf i = r →
      (mapGet (rrfScores vec kw) i).getD 0 = 2 / (61 + (r : ℚ))) ∧
    (∀ (i : String) (r : ℕ),
      ((i ∈ vec.map Doc.id ∧ (vec.map Doc.id).indexOf i = r ∧
          i ∉ kw.map Doc.id) ∨
       (i ∈ kw.map Doc.id ∧ (kw.map Doc.id).indexOf i = r ∧
          i ∉ vec.map Doc.id)) →
      (mapGet (rrfScores vec kw) i).getD 0 = 1 / (61 + (r : ℚ))) ∧
    (∀ r : ℕ, 1 / (61 + (r : ℚ)) < 2 / (61 + (r : ℚ))) := by
  have hchar := rrfScores_getD vec kw hv hk
  have hden : ∀ r : ℕ, (0 : ℚ) < 61 + (r : ℚ) := by
    intro r
    positivity
  refine ⟨hchar, ?_, ?_, ?_⟩
  · intro i r hiv hik hrv hrk
    rw [hchar i]
    unfold rrfSpecScore
    rw [if_pos hiv, if_pos hik, hrv, hrk]
    have hne : (61 + (r : ℚ)) ≠ 0 := ne_of_gt (hden r)
    field_simp
    ring
  · intro i r hcase
    rw [hchar i]
    unfold rrfSpecScore
    rcases hcase with ⟨hiv, hrv, hnk⟩ | ⟨hik, hrk, hnv⟩
    · rw [if_pos hiv, if_neg hnk, hrv, add_zero]
      ring_nf
    · rw [if_pos hik, if_neg hnv, hrk, zero_add]
      ring_nf
  · intro r
    have := hden r
    rw [div_lt_div_iff₀ this this]
    nlinarith

/-- Witness for C1 at concrete branch lists: vector `[A, B]`,
keyword `[A, C]`; `A` sits at position 0 in both branches and scores
`2 / 61`, `B` sits at position 1 of the vector branch only and scores
`1 / 62`, and `1 / 61 < 2 / 61`. -/
theorem performRRF_fusion_score_witness :
    (mapGet (rrfScores
        [⟨"A", "a", none, none, ""⟩, ⟨"B", "b", none, none, ""⟩]
        [⟨"A", "a2", none, none, ""⟩, ⟨"C", "c", none, none, ""⟩]) "A").getD 0 =
      2 / 61 ∧
    (mapGet (rrfScores
        [⟨"A", "a", none, none, ""⟩, ⟨"B", "b", none, none, ""⟩]
        [⟨"A", "a2", none, none, ""⟩, ⟨"C", "c", none, none, ""⟩]) "B").getD 0 =
      1 / 62 ∧
    (1 : ℚ) / 61 < 2 / 61 := by
  have h := performRRF_fusion_score
    [⟨"A", "a", none, none, ""⟩, ⟨"B", "b", none, none, ""⟩]
    [⟨"A", "a2", none, none, ""⟩, ⟨"C", "c", none, none, ""⟩]
    (by decide) (by decide)
  refine ⟨?_, ?_, ?_⟩
  · have := h.2.1 "A" 0 (by decide) (by decide) (by decide) (by decide)
    simpa using this
  · have := h.2.2.1 "B" 1 (Or.inl ⟨by decide, by decide, by decide⟩)
    rw [this]
    norm_num
  · have := h.2.2.2 0
    simpa using this

lemma mapGet_eq_none_iff {α : Type} (m : List (String × α)) (i : String) :
    mapGet m i = none ↔ i ∉ m.map Prod.fst := by
  induction m with
  | nil => simp [mapGet]
  | cons p rest ih =>
    by_cases hp : p.1 = i
    · simp [mapGet, hp]
    · simp only [mapGet, hp, if_false, List.map_cons, List.mem_cons]
      rw [ih]
      constructor
      · intro h hc
        rcases hc with hc | hc
        · exact hp hc.symm
        · exact h hc
      · intro h hc
        exact h (Or.inr hc)

lemma mapGet_append_of_some {α : Type} {m : List (String × α)} {i : String}
    {v : α} (h : mapGet m i = some v) (l : List (String × α)) :
    mapGet (m ++ l) i = some v := by
  induction m with
  | nil => simp [mapGet] at h
  | cons p rest ih =>
    rw [List.cons_append]
    by_cases hp : p.1 = i
    · simp only [mapGet, hp, if_true, eq_self_iff_true] at h ⊢
      exact h
    · simp only [mapGet, hp, if_false] at h ⊢
      exact ih h

lemma mapGet_append_of_none {α : Type} {m : List (String × α)} {i : String}
    (h : mapGet m i = none) (l : List (String × α)) :
    mapGet (m ++ l) i = mapGet l i := by
  induction m with
  | nil => rfl
  | cons p rest ih =>
    rw [List.cons_append]
    by_cases hp : p.1 = i
    · simp [mapGet, hp] at h
    · simp only [mapGet, hp, if_false] at h ⊢
      exact ih h

lemma foldl_docStepV_eq (vec : List Doc) :
    ∀ m : List (String × Doc), (vec.map Doc.id).Nodup →
      (∀ d ∈ vec, d.id ∉ m.map Prod.fst) →
      vec.foldl docStepV m = m ++ vec.map (fun d => (d.id, d)) := by
  induction vec with
  | nil => intro m _ _; simp
  | cons d ds ih =>
    intro m hnd hfresh
    have hnd0 : (d.id :: ds.map Doc.id).Nodup := by simpa using hnd
    have hnd' : (ds.map Doc.id).Nodup := (List.nodup_cons.1 hnd0).2
    have hdid : d.id ∉ ds.map Doc.id := (List.nodup_cons.1 hnd0).1
    have habs : (m.any (fun p => p.1 = d.id)) = false := by
      rcases hb : m.any (fun p => p.1 = d.id) with _ | _
      · rfl
      · exact absurd ((anyKey_iff_mem m d.id).1 hb)
          (hfresh d (List.mem_cons_self d ds))
    rw [List.foldl_cons]
    have hstep : docStepV m d = m ++ [(d.id, d)] := by
      unfold docStepV
      exact mapSet_of_absent d habs
    rw [hstep, ih (m ++ [(d.id, d)]) hnd' ?_]
    · simp
    · intro e he
      rw [List.map_append, List.mem_append]
      rintro (h1 | h2)
      · exact hfresh e (List.mem_cons_of_mem d he) h1
      · have : e.id = d.id := by simpa using h2
        exact hdid (this ▸ List.mem_map_of_mem Doc.id he)

lemma mapGet_pairList (vec : List Doc) (i : String) (h : i ∈ vec.map Doc.id) :
    ∃ d ∈ vec, d.id = i ∧
      mapGet (vec.map (fun d => (d.id, d))) i = some d := by
  induction vec with
  | nil => simp at h
  | cons d ds ih =>
    by_cases hd : d.id = i
    · exact ⟨d, List.mem_cons_self d ds, hd, by simp [mapGet, hd]⟩
    · have h' : i = d.id ∨ i ∈ ds.map Doc.id := by
        rw [List.map_cons, List.mem_cons] at h
        exact h
      have hmem : i ∈ ds.map Doc.id := by
        rcases h' with h1 | h1
        · exact absurd h1.symm hd
        · exact h1
      rcases ih hmem with ⟨e, he, heid, hget⟩
      exact ⟨e, List.mem_cons_of_mem d he, heid, by simp [mapGet, hd, hget]⟩

lemma foldl_docStepK_preserve (kw : List Doc) :
    ∀ (m : List (String × Doc)) (i : String) (v : Doc),
      mapGet m i = some v → mapGet (kw.foldl docStepK m) i = some v := by
  induction kw with
  | nil => intro m i v h; simpa using h
  | cons e es ih =>
    intro m i v h
    rw [List.foldl_cons]
    apply ih
    unfold docStepK
    by_cases hany : (m.any (fun p => p.1 = e.id)) = true
    · simpa [hany] using h
    · rw [if_neg hany]
      exact mapGet_append_of_some h _

lemma docStepK_keys_sub (m : List (String × Doc)) (e : Doc) (i : String)
    (h1 : i ∉ m.map Prod.fst) (h2 : ¬ e.id = i) :
    i ∉ (docStepK m e).map Prod.fst := by
  unfold docStepK
  by_cases hany : (m.any (fun p => p.1 = e.id)) = true
  · simpa [hany] using h1
  · rw [if_neg hany, List.map_append, List.mem_append]
    rintro (hc | hc)
    · exact h1 hc
    · exact h2 (by simpa using hc : i = e.id).symm

lemma foldl_docStepK_new (kw : List Doc) :
    ∀ (m : List (String × Doc)) (i : String),
      i ∉ m.map Prod.fst → i ∈ kw.map Doc.id →
      ∃ d ∈ kw, d.id = i ∧ mapGet (kw.foldl docStepK m) i = some d := by
  induction kw with
  | nil => intro m i _ h; simp at h
  | cons e es ih =>
    intro m i hnot hmem
    rw [List.foldl_cons]
    by_cases he : e.id = i
    · have habs : (m.any (fun p => p.1 = e.id)) = false := by
        rcases hb : m.any (fun p => p.1 = e.id) with _ | _
        · rfl
        · exact absurd (he ▸ (anyKey_iff_mem m e.id).1 hb) hnot
      have hstep : docStepK m e = m ++ [(e.id, e)] := by
        unfold docStepK
        rw [if_neg (by simp [habs] : ¬ (m.any (fun p => p.1 = e.id)) = true)]
      have hget : mapGet (docStepK m e) i = some e := by
        rw [hstep, mapGet_append_of_none ((mapGet_eq_none_iff m i).2 hnot)]
        simp [mapGet, he]
      exact ⟨e, List.mem_cons_self e es, he,
        foldl_docStepK_preserve es _ i e hget⟩
    · have hmem' : i ∈ es.map Doc.id := by
        rw [List.map_cons, List.mem_cons] at hmem
        rcases hmem with h1 | h1
        · exact absurd h1.symm he
        · exact h1
      rcases ih (docStepK m e) i (docStepK_keys_sub m e i hnot he) hmem' with
        ⟨d, hd, hdid, hget⟩
      exact ⟨d, List.mem_cons_of_mem e hd, hdid, hget⟩

lemma rrfDocs_spec (vec kw : List Doc) (hv : (vec.map Doc.id).Nodup) :
    ∀ i ∈ rrfKeys vec kw,
      ∃ d, mapGet (rrfDocs vec kw) i = some d ∧ d.id = i ∧
        (i ∈ vec.map Doc.id → d ∈ vec) ∧ (i ∉ vec.map Doc.id → d ∈ kw) := by
  intro i hi
  have hvecfold : vec.foldl docStepV [] = vec.map (fun d => (d.id, d)) := by
    rw [foldl_docStepV_eq vec [] hv (by simp)]
    simp
  unfold rrfDocs
  rw [hvecfold]
  rcases List.mem_append.1 hi with hiv | hikv
  · rcases mapGet_pairList vec i hiv with ⟨d, hd, hdid, hget⟩
    exact ⟨d, foldl_docStepK_preserve kw _ i d hget, hdid,
      fun _ => hd, fun hcon => absurd hiv hcon⟩
  · have hmemfil := List.mem_filter.1 hikv
    have hnv : i ∉ vec.map Doc.id := of_decide_eq_true hmemfil.2
    have hik : i ∈ kw.map Doc.id := hmemfil.1
    have hkeys : i ∉ (vec.map (fun d => (d.id, d))).map Prod.fst := by
      intro hc
      apply hnv
      rcases List.mem_map.1 hc with ⟨p, hp, hpfst⟩
      rcases List.mem_map.1 hp with ⟨d, hd, rfl⟩
      exact hpfst ▸ List.mem_map_of_mem Doc.id hd
    rcases foldl_docStepK_new kw _ i hkeys hik with ⟨d, hd, hdid, hget⟩
    exact ⟨d, hget, hdid, fun hcon => absurd hcon hnv, fun _ => hd⟩

lemma insertionSort_filter_score (s : ℚ) :
    ∀ l : List (String × ℚ),
      (l.insertionSort byScoreDesc).filter (fun p => p.2 = s) =
        l.filter (fun p => p.2 = s) := by
  intro l
  induction l with
  | nil => rfl
  | cons x xs ih =>
    have hunfold : (x :: xs).insertionSort byScoreDesc =
        (xs.insertionSort byScoreDesc).orderedInsert byScoreDesc x := rfl
    rw [hunfold, List.orderedInsert_eq_take_drop, List.filter_append]
    by_cases hx : x.2 = s
    · have htake : ((xs.insertionSort byScoreDesc).takeWhile
          (fun b => ¬ byScoreDesc x b)).filter (fun p => p.2 = s) = [] := by
        rw [List.filter_eq_nil_iff]
        intro b hb
        have hcond := List.mem_takeWhile_imp hb
        have hlt : x.2 < b.2 := lt_of_not_le (by
          simpa [byScoreDesc] using hcond)
        have : b.2 ≠ s := by
          rw [← hx]
          exact ne_of_gt hlt
        simpa using this
      rw [htake, List.nil_append, List.filter_cons, if_pos (by simpa using hx)]
      have hsplit : ((xs.insertionSort byScoreDesc).takeWhile
            (fun b => ¬ byScoreDesc x b)).filter (fun p => p.2 = s) ++
          ((xs.insertionSort byScoreDesc).dropWhile
            (fun b => ¬ byScoreDesc x b)).filter (fun p => p.2 = s) =
          (xs.insertionSort byScoreDesc).filter (fun p => p.2 = s) := by
        rw [← List.filter_append, List.takeWhile_append_dropWhile]
      rw [List.filter_cons, if_pos (by simpa using hx)] at *
      have hdrop : ((xs.insertionSort byScoreDesc).dropWhile
            (fun b => ¬ byScoreDesc x b)).filter (fun p => p.2 = s) =
          (xs.insertionSort byScoreDesc).filter (fun p => p.2 = s) := by
        rw [← hsplit, htake, List.nil_append]
      rw [hdrop, ih]
    · rw [List.filter_cons, if_neg (by simpa using hx)]
      rw [← List.filter_append, List.takeWhile_append_dropWhile, ih]
      rw [List.filter_cons, if_neg (by simpa using hx)]

lemma mapGet_of_mem_nodup {α : Type} :
    ∀ (m : List (String × α)), (m.map Prod.fst).Nodup →
      ∀ p ∈ m, mapGet m p.1 = some p.2 := by
  intro m
  induction m with
  | nil => intro _ p hp; simp at hp
  | cons q rest ih =>
    intro hnd p hp
    rw [List.map_cons] at hnd
    have hnd0 := List.nodup_cons.1 hnd
    rcases List.mem_cons.1 hp with rfl | hp'
    · simp [mapGet]
    · have hne : ¬ q.1 = p.1 := by
        intro hc
        exact hnd0.1 (hc ▸ List.mem_map_of_mem Prod.fst hp')
      simp only [mapGet, hne, if_false]
      exact ih hnd0.2 p hp'

lemma rrfScores_entry_score (vec kw : List Doc) (hv : (vec.map Doc.id).Nodup)
    (hk : (kw.map Doc.id).Nodup) :
    ∀ p ∈ rrfScores vec kw, p.2 = rrfSpecScore vec kw p.1 := by
  intro p hp
  have hnd : ((rrfScores vec kw).map Prod.fst).Nodup := by
    rw [rrfScores_keys vec kw hv hk]
    exact rrfKeys_nodup vec kw hv hk
  have := mapGet_of_mem_nodup _ hnd p hp
  have h2 := rrfScores_getD vec kw hv hk p.1
  rw [this] at h2
  simpa using h2

lemma performRRF_def (vec kw : List Doc) (limit : ℕ) :
    performRRF vec kw limit =
      (((rrfScores vec kw).insertionSort byScoreDesc).take limit).map
        (fun p => (mapGet (rrfDocs vec kw) p.1).getD default) := rfl

/-- C2: `performRRF` deduplicates by id (at most one output entry per id, with
the first-seen record — the vector-branch record when the id occurs there —
supplying the payload), sorts descending by the summed fusion score,
truncates to `limit` (output length is `min limit` of the number of distinct
ids), and breaks score ties stably: the sorted entry list filtered to any
score value keeps the insertion order, which is vector-branch ids in vector
order followed by keyword-only ids in keyword order.  Hypotheses: each branch
list carries pairwise-distinct ids (SQL rows keyed by `id`). -/
theorem performRRF_dedup_sort_truncate (vec kw : List Doc) (limit : ℕ)
    (hv : (vec.map Doc.id).Nodup) (hk : (kw.map Doc.id).Nodup) :
    ((performRRF vec kw limit).map Doc.id).Nodup ∧
    (performRRF vec kw limit).length = min limit (rrfKeys vec kw).length ∧
    List.Sorted (fun a b => b ≤ a)
      ((performRRF vec kw limit).map (fun d => rrfSpecScore vec kw d.id)) ∧
    (∀ d ∈ performRRF vec kw limit,
      (d.id ∈ vec.map Doc.id → d ∈ vec) ∧
      (d.id ∉ vec.map Doc.id → d ∈ kw)) ∧
    (∀ s : ℚ,
      (((rrfScores vec kw).insertionSort byScoreDesc).filter
          (fun p => p.2 = s)) =
        (rrfScores vec kw).filter (fun p => p.2 = s)) ∧
    (rrfScores vec kw).map Prod.fst = rrfKeys vec kw := by
  have hperm : List.Perm ((rrfScores vec kw).insertionSort byScoreDesc)
      (rrfScores vec kw) :=
    List.perm_insertionSort _ _
  have hkeysS : (rrfScores vec kw).map Prod.fst = rrfKeys vec kw :=
    rrfScores_keys vec kw hv hk
  have hndS : ((rrfScores vec kw).map Prod.fst).Nodup := by
    rw [hkeysS]
    exact rrfKeys_nodup vec kw hv hk
  have hnds : ((((rrfScores vec kw).insertionSort byScoreDesc)).map
      Prod.fst).Nodup := ((hperm.map Prod.fst).nodup_iff).2 hndS
  have hTsub : List.Sublist
      (((rrfScores vec kw).insertionSort byScoreDesc).take limit)
      ((rrfScores vec kw).insertionSort byScoreDesc) := List.take_sublist _ _
  have hdocprops : ∀ p ∈ (((rrfScores vec kw).insertionSort byScoreDesc).take
        limit),
      ∃ d, mapGet (rrfDocs vec kw) p.1 = some d ∧ d.id = p.1 ∧
        (p.1 ∈ vec.map Doc.id → d ∈ vec) ∧
        (p.1 ∉ vec.map Doc.id → d ∈ kw) := by
    intro p hp
    apply rrfDocs_spec vec kw hv
    have hpS : p ∈ rrfScores vec kw := hperm.mem_iff.1 (hTsub.subset hp)
    rw [← hkeysS]
    exact List.mem_map_of_mem Prod.fst hpS
  have hmapid : (performRRF vec kw limit).map Doc.id =
      (((rrfScores vec kw).insertionSort byScoreDesc).take limit).map
        Prod.fst := by
    rw [performRRF_def, List.map_map]
    apply List.map_congr_left
    intro p hp
    rcases hdocprops p hp with ⟨d, hget, hdid, _, _⟩
    simp [Function.comp, hget, hdid]
  refine ⟨?_, ?_, ?_, ?_, ?_, hkeysS⟩
  · rw [hmapid, List.map_take]
    exact (List.Nodup.sublist (List.take_sublist _ _) hnds)
  · rw [performRRF_def, List.length_map, List.length_take, hperm.length_eq]
    have : (rrfScores vec kw).length = (rrfKeys vec kw).length := by
      rw [← hkeysS, List.length_map]
    rw [this]
  · have hmapscore : (performRRF vec kw limit).map
        (fun d => rrfSpecScore vec kw d.id) =
        (((rrfScores vec kw).insertionSort byScoreDesc).take limit).map
          Prod.snd := by
      rw [performRRF_def, List.map_map]
      apply List.map_congr_left
      intro p hp
      rcases hdocprops p hp with ⟨d, hget, hdid, _, _⟩
      have hpS : p ∈ rrfScores vec kw := hperm.mem_iff.1 (hTsub.subset hp)
      have hscore := rrfScores_entry_score vec kw hv hk p hpS
      simp [Function.comp, hget, hdid, ← hscore]
    rw [hmapscore]
    have hsorted : List.Sorted byScoreDesc
        ((rrfScores vec kw).insertionSort byScoreDesc) :=
      List.sorted_insertionSort byScoreDesc (rrfScores vec kw)
    have hsortedT : List.Sorted byScoreDesc
        (((rrfScores vec kw).insertionSort byScoreDesc).take limit) :=
      List.Pairwise.sublist hTsub hsorted
    exact List.Pairwise.map Prod.snd (fun a b hab => hab) hsortedT
  · intro d hd
    rw [performRRF_def] at hd
    rcases List.mem_map.1 hd with ⟨p, hp, rfl⟩
    rcases hdocprops p hp with ⟨e, hget, heid, hev, hek⟩
    rw [hget]
    simp only [Option.getD_some]
    constructor
    · intro hmem
      exact hev (heid ▸ hmem)
    · intro hmem
      exact hek (fun hc => hmem (heid ▸ hc))
  · intro s
    exact insertionSort_filter_score s (rrfScores vec kw)

/-- Witness for C2 at vector branch `[A, B]`, keyword branch `[B, C]`,
limit 2. -/
theorem performRRF_dedup_sort_truncate_witness :
    ((performRRF
        [⟨"A", "a", none, none, ""⟩, ⟨"B", "b", none, none, ""⟩]
        [⟨"B", "b2", none, none, ""⟩, ⟨"C", "c", none, none, ""⟩] 2).map
      Doc.id).Nodup ∧
    (performRRF
        [⟨"A", "a", none, none, ""⟩, ⟨"B", "b", none, none, ""⟩]
        [⟨"B", "b2", none, none, ""⟩, ⟨"C", "c", none, none, ""⟩] 2).length =
      min 2 (rrfKeys
        [⟨"A", "a", none, none, ""⟩, ⟨"B", "b", none, none, ""⟩]
        [⟨"B", "b2", none, none, ""⟩, ⟨"C", "c", none, none, ""⟩]).length :=
  ⟨(performRRF_dedup_sort_truncate _ _ 2 (by decide) (by decide)).1,
   (performRRF_dedup_sort_truncate _ _ 2 (by decide) (by decide)).2.1⟩

lemma fillLoop_length (cands : List Doc) :
    ∀ (acc : List Doc) (seen : List String) (limit : ℕ),
      (cands.map Doc.id).Nodup →
      (fillLoop cands acc seen limit).length =
        if limit ≤ acc.length then acc.length
        else min limit
          (acc.length + (cands.filter (fun d => d.id ∉ seen)).length) := by
  induction cands with
  | nil =>
    intro acc seen limit _
    rw [fillLoop]
    split_ifs with h
    · rfl
    · simp only [List.filter_nil, List.length_nil, add_zero]
      omega
  | cons d ds ih =>
    intro acc seen limit hnd
    rw [List.map_cons] at hnd
    have hnd0 := List.nodup_cons.1 hnd
    have hnd' : (ds.map Doc.id).Nodup := hnd0.2
    have hdid : d.id ∉ ds.map Doc.id := hnd0.1
    rw [fillLoop]
    by_cases h1 : limit ≤ acc.length
    · rw [if_pos h1, if_pos h1]
    · rw [if_neg h1]
      by_cases h2 : d.id ∈ seen
      · have hcond : (decide (d.id ∉ seen)) = false := by simp [h2]
        rw [if_pos h2, ih acc seen limit hnd', List.filter_cons]
        simp only [hcond, Bool.false_eq_true, if_false]
      · have hcond : (decide (d.id ∉ seen)) = true := by simp [h2]
        have hfil : ds.filter (fun e => e.id ∉ d.id :: seen) =
            ds.filter (fun e => e.id ∉ seen) := by
          apply List.filter_congr
          intro e he
          have hne : ¬ e.id = d.id := by
            intro hc
            exact hdid (hc ▸ List.mem_map_of_mem Doc.id he)
          simp [List.mem_cons, hne]
        rw [if_neg h2, ih (acc ++ [d]) (d.id :: seen) limit hnd', hfil,
          List.filter_cons]
        simp only [hcond, if_true, List.length_append, List.length_cons,
          List.length_nil]
        split_ifs <;> omega

lemma selectReranked_ids (cands : List Doc) :
    ∀ rerankedIds : List String,
      (selectReranked rerankedIds cands).map Doc.id =
        rerankedIds.filter (fun i => i ∈ cands.map Doc.id) := by
  intro r
  induction r with
  | nil => rfl
  | cons i rs ih =>
    rcases hf : cands.find? (fun d => d.id = i) with _ | d
    · have hstep : selectReranked (i :: rs) cands = selectReranked rs cands := by
        unfold selectReranked
        exact List.filterMap_cons_none hf
      have hni : i ∉ cands.map Doc.id := by
        intro hc
        rcases List.mem_map.1 hc with ⟨e, he, heid⟩
        have := List.find?_eq_none.1 hf e he
        exact this (by simpa using heid)
      have hcond : (decide (i ∈ cands.map Doc.id)) = false := by simp [hni]
      rw [hstep, ih, List.filter_cons]
      simp only [hcond, Bool.false_eq_true, if_false]
    · have hstep : selectReranked (i :: rs) cands =
          d :: selectReranked rs cands := by
        unfold selectReranked
        exact List.filterMap_cons_some hf
      have hdi : d.id = i := by
        have := List.find?_some hf
        simpa using this
      have hmem : i ∈ cands.map Doc.id :=
        hdi ▸ List.mem_map_of_mem Doc.id (List.mem_of_find?_eq_some hf)
      have hcond : (decide (i ∈ cands.map Doc.id)) = true := by simp [hmem]
      rw [hstep, List.map_cons, hdi, ih, List.filter_cons]
      simp only [hcond, if_true]

lemma selectReranked_subset (cands : List Doc) (rerankedIds : List String) :
    ∀ d ∈ selectReranked rerankedIds cands, d ∈ cands := by
  intro d hd
  rcases List.mem_filterMap.1 hd with ⟨i, _, hf⟩
  exact List.mem_of_find?_eq_some hf

lemma filter_mem_length (cands : List Doc) (seen : List String)
    (hc : (cands.map Doc.id).Nodup) (hs : seen.Nodup)
    (hsub : ∀ i ∈ seen, i ∈ cands.map Doc.id) :
    (cands.filter (fun d => d.id ∈ seen)).length = seen.length := by
  have hmapnd : ((cands.filter (fun d => d.id ∈ seen)).map Doc.id).Nodup := by
    refine List.Nodup.sublist ?_ hc
    exact List.Sublist.map Doc.id (List.filter_sublist cands)
  have hperm : List.Perm ((cands.filter (fun d => d.id ∈ seen)).map Doc.id)
      seen := by
    rw [List.perm_ext_iff_of_nodup hmapnd hs]
    intro i
    constructor
    · intro hi
      rcases List.mem_map.1 hi with ⟨e, he, heid⟩
      have := List.mem_filter.1 he
      exact heid ▸ (of_decide_eq_true this.2)
    · intro hi
      rcases List.mem_map.1 (hsub i hi) with ⟨e, he, heid⟩
      refine List.mem_map.2 ⟨e, ?_, heid⟩
      exact List.mem_filter.2 ⟨he, by simp [heid, hi]⟩
  have := hperm.length_eq
  rwa [List.length_map] at this

/-- C4 counterexample: with fused candidates `[A, B]`, limit 3, and the
reranked id list `["A", "A"]` (two valid entries, fewer than the limit), the
merged result has length 3, not `min 3 2 = 2`: the duplicated reranked id
produces a duplicated entry which the fill loop does not deduplicate. -/
theorem mergeReranked_duplicate_counterexample :
    ((["A", "A"].filter (fun i =>
        i ∈ ([⟨"A", "a", none, none, ""⟩, ⟨"B", "b", none, none, ""⟩] :
          List Doc).map Doc.id)).length < 3) ∧
    (mergeReranked ["A", "A"]
        [⟨"A", "a", none, none, ""⟩, ⟨"B", "b", none, none, ""⟩] 3).length = 3 ∧
    ¬ ((mergeReranked ["A", "A"]
        [⟨"A", "a", none, none, ""⟩, ⟨"B", "b", none, none, ""⟩] 3).length =
      min 3 ([⟨"A", "a", none, none, ""⟩,
        ⟨"B", "b", none, none, ""⟩] : List Doc).length) := by
  refine ⟨by decide, by decide, by decide⟩

/-- C4 (amended): when the reranked id list is duplicate-free and contains
fewer than `limit` ids valid against the fused candidate list (whose ids are
pairwise distinct), the fallback merge of `queryKnowledge` fills from the
fused list in fused order, skipping ids already included, and the merged
length equals `min limit (number of fused candidates)`. -/
theorem mergeReranked_fallback_length (rerankedIds : List String)
    (cands : List Doc) (limit : ℕ)
    (hnd : (cands.map Doc.id).Nodup) (hr : rerankedIds.Nodup)
    (hcount :
      (rerankedIds.filter (fun i => i ∈ cands.map Doc.id)).length < limit) :
    (mergeReranked rerankedIds cands limit).length = min limit cands.length := by
  have hids := selectReranked_ids cands rerankedIds
  have hlen : (selectReranked rerankedIds cands).length =
      (rerankedIds.filter (fun i => i ∈ cands.map Doc.id)).length := by
    rw [← hids, List.length_map]
  unfold mergeReranked
  rw [if_pos (by rw [hlen]; exact hcount)]
  rw [fillLoop_length cands _ _ limit hnd]
  rw [if_neg (by rw [hlen]; omega)]
  have hseen_nodup : ((selectReranked rerankedIds cands).map Doc.id).Nodup := by
    rw [hids]
    exact hr.filter _
  have hsub : ∀ i ∈ (selectReranked rerankedIds cands).map Doc.id,
      i ∈ cands.map Doc.id := by
    rw [hids]
    intro i hi
    exact of_decide_eq_true (List.mem_filter.1 hi).2
  have hin := filter_mem_length cands _ hnd hseen_nodup hsub
  have htot := List.length_eq_length_filter_add
    (l := cands) (fun d => d.id ∈ (selectReranked rerankedIds cands).map Doc.id)
  have hnotfil : cands.filter
        (fun d => d.id ∉ (selectReranked rerankedIds cands).map Doc.id) =
      cands.filter (fun d =>
        !(decide (d.id ∈ (selectReranked rerankedIds cands).map Doc.id))) := by
    apply List.filter_congr
    intro e _
    simp only [decide_not]
  rw [hnotfil]
  rw [List.length_map] at hin
  omega

/-- Witness for C4: fused candidates `[A, B, C]`, reranked ids `["B"]`
(one valid id, fewer than limit 2): merged length is `min 2 3 = 2`. -/
theorem mergeReranked_fallback_length_witness :
    (mergeReranked ["B"]
      [⟨"A", "a", none, none, ""⟩, ⟨"B", "b", none, none, ""⟩,
       ⟨"C", "c", none, none, ""⟩] 2).length = 2 := by
  have := mergeReranked_fallback_length ["B"]
    [⟨"A", "a", none, none, ""⟩, ⟨"B", "b", none, none, ""⟩,
     ⟨"C", "c", none, none, ""⟩] 2 (by decide) (by decide) (by decide)
  simpa using this

/-- C3 counterexample: the legacy gateway variant returns the judge-supplied
id `"X"` although no candidate has that id, so the claim that every invalid
id is silently dropped fails on it. -/
theorem rerankResultsLegacy_counterexample :
    "X" ∈ rerankResultsLegacy (JudgeOutcome.arr ["X"])
      [⟨"A", "a", none, none, ""⟩] 1 ∧
    "X" ∉ ([⟨"A", "a", none, none, ""⟩] : List Doc).map Doc.id := by
  exact ⟨by decide, by decide⟩

/-- C3 (amended to the validating gateway): `rerankResults` of
`utils/gemini.ts` lines 133–193 only ever returns candidate ids (invalid
judge ids are dropped), returns the first `topN` candidate ids in fused order
when the judge call throws or its output fails to parse, likewise when no
valid id remains after filtering, and returns at most `topN` ids; the legacy
variant at lines 422–445 falls back only on a throw and passes parsed ids
through unvalidated. -/
theorem rerankResults_defensive (outcome : JudgeOutcome)
    (documents : List Doc) (topN : ℕ) :
    (∀ i ∈ rerankResults outcome documents topN, i ∈ documents.map Doc.id) ∧
    (outcome = JudgeOutcome.throw →
      rerankResults outcome documents topN = (documents.take topN).map Doc.id) ∧
    (∀ parsed, outcome = JudgeOutcome.arr parsed →
      parsed.filter (fun i => i ∈ documents.map Doc.id) = [] →
      rerankResults outcome documents topN = (documents.take topN).map Doc.id) ∧
    (∀ parsed i, outcome = JudgeOutcome.arr parsed →
      i ∈ parsed → i ∉ documents.map Doc.id →
      i ∉ rerankResults outcome documents topN) ∧
    (rerankResults outcome documents topN).length ≤ topN := by
  refine ⟨?_, ?_, ?_, ?_, ?_⟩
  · intro i hi
    match outcome with
    | JudgeOutcome.throw =>
      rcases List.mem_map.1 hi with ⟨d, hd, rfl⟩
      exact List.mem_map_of_mem Doc.id (List.mem_of_mem_take hd)
    | JudgeOutcome.arr parsed =>
      rw [rerankResults] at hi
      by_cases hz : parsed.filter (fun i => i ∈ documents.map Doc.id) = []
      · rw [if_pos hz] at hi
        rcases List.mem_map.1 hi with ⟨d, hd, rfl⟩
        exact List.mem_map_of_mem Doc.id (List.mem_of_mem_take hd)
      · rw [if_neg hz] at hi
        have := List.mem_filter.1 (List.mem_of_mem_take hi)
        exact of_decide_eq_true this.2
  · rintro rfl
    rfl
  · rintro parsed rfl hz
    rw [rerankResults, if_pos hz]
  · rintro parsed i rfl hip hni hmem
    rw [rerankResults] at hmem
    by_cases hz : parsed.filter (fun j => j ∈ documents.map Doc.id) = []
    · rw [if_pos hz] at hmem
      rcases List.mem_map.1 hmem with ⟨d, hd, heq⟩
      exact hni (heq ▸ List.mem_map_of_mem Doc.id (List.mem_of_mem_take hd))
    · rw [if_neg hz] at hmem
      have := List.mem_filter.1 (List.mem_of_mem_take hmem)
      exact hni (of_decide_eq_true this.2)
  · match outcome with
    | JudgeOutcome.throw =>
      calc ((documents.take topN).map Doc.id).length
          = (documents.take topN).length := List.length_map _ _
        _ ≤ topN := List.length_take_le _ _
    | JudgeOutcome.arr parsed =>
      rw [rerankResults]
      by_cases hz : parsed.filter (fun i => i ∈ documents.map Doc.id) = []
      · rw [if_pos hz]
        calc ((documents.take topN).map Doc.id).length
            = (documents.take topN).length := List.length_map _ _
          _ ≤ topN := List.length_take_le _ _
      · rw [if_neg hz]
        exact List.length_take_le _ _

/-- Witness for C3's amended theorem at a concrete judge outcome
`["X", "B"]` against candidates `[A, B]`: the invalid id `"X"` is absent
from the gateway's output, and a thrown judge call yields the first `topN`
candidate ids. -/
theorem rerankResults_defensive_witness :
    "X" ∉ rerankResults (JudgeOutcome.arr ["X", "B"])
      [⟨"A", "a", none, none, ""⟩, ⟨"B", "b", none, none, ""⟩] 1 ∧
    rerankResults JudgeOutcome.throw
      [⟨"A", "a", none, none, ""⟩, ⟨"B", "b", none, none, ""⟩] 1 = ["A"] := by
  constructor
  · exact (rerankResults_defensive (JudgeOutcome.arr ["X", "B"])
      [⟨"A", "a", none, none, ""⟩, ⟨"B", "b", none, none, ""⟩] 1).2.2.2.1
      ["X", "B"] "X" rfl (by decide) (by decide)
  · have := (rerankResults_defensive JudgeOutcome.throw
      [⟨"A", "a", none, none, ""⟩, ⟨"B", "b", none, none, ""⟩] 1).2.1 rfl
    rw [this]
    decide

/-- C6 counterexample: the per-result enricher of `retrieval.service.ts`
issues two store queries for two child results sharing one parent — one
lookup per result, not one batched lookup. -/
theorem enrich_per_result_counterexample :
    (enrichWithParentContext
      [⟨"c1", "x", some "child", some "p1", ""⟩,
       ⟨"c2", "y", some "child", some "p1", ""⟩]
      (fun p => if p = "p1" then some ("P1", "m1") else none)).2 = 2 ∧
    (2 : ℕ) ≠ 1 := by
  exact ⟨by decide, by decide⟩

lemma firstDedup_mem :
    ∀ (n : ℕ) (l : List String), l.length ≤ n →
      ∀ x, (x ∈ firstDedup l ↔ x ∈ l) := by
  intro n
  induction n with
  | zero =>
    intro l hl x
    rw [List.length_eq_zero.1 (Nat.le_zero.1 hl)]
    rw [firstDedup]
  | succ n ih =>
    intro l hl x
    match l with
    | [] => rw [firstDedup]
    | y :: ys =>
      rw [firstDedup, List.mem_cons, List.mem_cons]
      have hlen : (ys.filter (fun z => z ≠ y)).length ≤ n := by
        have h1 := List.length_filter_le (fun z => z ≠ y) ys
        have h2 : ys.length ≤ n := by
          simpa using Nat.lt_succ_iff.1 (Nat.lt_of_lt_of_le (by simp) hl)
        omega
      rw [ih _ hlen x]
      by_cases hxy : x = y
      · simp [hxy]
      · simp only [List.mem_filter]
        constructor
        · rintro (h | h)
          · exact Or.inl h
          · exact Or.inr h.1
        · rintro (h | h)
          · exact Or.inl h
          · exact Or.inr ⟨h, by simpa using hxy⟩

lemma firstDedup_nodup :
    ∀ (n : ℕ) (l : List String), l.length ≤ n → (firstDedup l).Nodup := by
  intro n
  induction n with
  | zero =>
    intro l hl
    rw [List.length_eq_zero.1 (Nat.le_zero.1 hl), firstDedup]
    exact List.nodup_nil
  | succ n ih =>
    intro l hl
    match l with
    | [] => rw [firstDedup]; exact List.nodup_nil
    | y :: ys =>
      rw [firstDedup, List.nodup_cons]
      have hlen : (ys.filter (fun z => z ≠ y)).length ≤ n := by
        have h1 := List.length_filter_le (fun z => z ≠ y) ys
        have h2 : ys.length ≤ n := by
          simpa using Nat.lt_succ_iff.1 (Nat.lt_of_lt_of_le (by simp) hl)
        omega
      constructor
      · intro hy
        have := (firstDedup_mem n _ hlen y).1 hy
        have := (List.mem_filter.1 this).2
        simp at this
      · exact ih _ hlen

lemma firstDedup_eq_nil_iff (l : List String) :
    firstDedup l = [] ↔ l = [] := by
  match l with
  | [] => simp [firstDedup]
  | y :: ys => rw [firstDedup]; simp

lemma mapGet_filterMap_store_none (store : Store) (p : String) :
    ∀ ids : List String, p ∉ ids →
      mapGet (ids.filterMap
        (fun q => (store q).map (fun cm => (q, cm)))) p = none := by
  intro ids
  induction ids with
  | nil => intro _; rfl
  | cons q qs ih =>
    intro hp
    have hpq : ¬ q = p := fun hc => hp (hc ▸ List.mem_cons_self q qs)
    have hpqs : p ∉ qs := fun hc => hp (List.mem_cons_of_mem q hc)
    rcases hs : store q with _ | cm
    · rw [List.filterMap_cons_none (by simp [hs])]
      exact ih hpqs
    · have hstep : List.filterMap
            (fun q2 => (store q2).map (fun cm2 => (q2, cm2))) (q :: qs) =
          (q, cm) :: List.filterMap
            (fun q2 => (store q2).map (fun cm2 => (q2, cm2))) qs := by
        rw [List.filterMap_cons]
        simp [hs]
      rw [hstep]
      simp only [mapGet, hpq, if_false]
      exact ih hpqs

lemma mapGet_filterMap_store (store : Store) :
    ∀ ids : List String, ids.Nodup → ∀ p ∈ ids,
      mapGet (ids.filterMap
        (fun q => (store q).map (fun cm => (q, cm)))) p = store p := by
  intro ids
  induction ids with
  | nil => intro _ p hp; simp at hp
  | cons q qs ih =>
    intro hnd p hp
    have hnd0 := List.nodup_cons.1 hnd
    rcases List.mem_cons.1 hp with rfl | hpqs
    · rcases hs : store p with _ | cm
      · rw [List.filterMap_cons_none (by simp [hs])]
        rw [mapGet_filterMap_store_none store p qs hnd0.1]
      · have hstep : List.filterMap
              (fun q2 => (store q2).map (fun cm2 => (q2, cm2))) (p :: qs) =
            (p, cm) :: List.filterMap
              (fun q2 => (store q2).map (fun cm2 => (q2, cm2))) qs := by
          rw [List.filterMap_cons]
          simp [hs]
        rw [hstep]
        simp [mapGet]
    · have hpq : ¬ q = p := fun hc => hnd0.1 (hc ▸ hpqs)
      rcases hs : store q with _ | cm
      · rw [List.filterMap_cons_none (by simp [hs])]
        exact ih hnd0.2 p hpqs
      · have hstep : List.filterMap
              (fun q2 => (store q2).map (fun cm2 => (q2, cm2))) (q :: qs) =
            (q, cm) :: List.filterMap
              (fun q2 => (store q2).map (fun cm2 => (q2, cm2))) qs := by
          rw [List.filterMap_cons]
          simp [hs]
        rw [hstep]
        simp only [mapGet, hpq, if_false]
        exact ih hnd0.2 p hpqs

/-- C6 (amended to the batched enricher): `enrichWithParentContextB` issues
exactly one batched store lookup when at least one child result carries a
parent id and none otherwise (never one lookup per result), and its output
enriches every child whose parent id resolves with the parent's content and
metadata while passing every other result (orphans included) through
unenriched; the per-result variant in `retrieval.service.ts` instead issues
one lookup per child result. -/
theorem enrichB_batched_spec (results : List Doc) (store : Store) :
    (enrichWithParentContextB results store).2 =
      (if childParentIds results = [] then 0 else 1) ∧
    (enrichWithParentContextB results store).1 =
      results.map (enrichExpected store) := by
  by_cases hz : childParentIds results = []
  · constructor
    · simp [enrichWithParentContextB, hz]
    · simp only [enrichWithParentContextB, hz, if_true]
      apply List.map_congr_left
      intro r hr
      have hnone : (if r.mtype = some "child" then r.parentid else none) =
          none := by
        have := (firstDedup_eq_nil_iff _).1 hz
        exact List.filterMap_eq_nil_iff.1 this r hr
      rcases hm : r.mtype with _ | t
      · simp [enrichExpected, hm]
      · rcases hp : r.parentid with _ | p
        · simp [enrichExpected, hm, hp]
        · by_cases ht : t = "child"
          · exfalso
            rw [hm, ht] at hnone
            rw [if_pos rfl, hp] at hnone
            exact Option.some_ne_none p hnone
          · simp [enrichExpected, hm, hp, ht]
  · constructor
    · simp [enrichWithParentContextB, hz]
    · simp only [enrichWithParentContextB, hz, Bool.false_eq_true, if_false]
      apply List.map_congr_left
      intro r hr
      rcases hm : r.mtype with _ | t
      · simp [enrichExpected, hm]
      · rcases hp : r.parentid with _ | p
        · simp [enrichExpected, hm, hp]
        · by_cases ht : t = "child"
          · have hpmem : p ∈ childParentIds results := by
              rw [childParentIds]
              rw [firstDedup_mem (results.filterMap (fun r =>
                if r.mtype = some "child" then r.parentid else none)).length _
                le_rfl p]
              exact List.mem_filterMap.2 ⟨r, hr, by rw [hm, ht, if_pos rfl, hp]⟩
            have hgot := mapGet_filterMap_store store (childParentIds results)
              (firstDedup_nodup (results.filterMap (fun r =>
                if r.mtype = some "child" then r.parentid else none)).length _
                le_rfl) p hpmem
            rcases hs : store p with _ | cm
            · rw [hs] at hgot
              simp [enrichExpected, hm, hp, ht, hgot, hs]
            · rw [hs] at hgot
              simp [enrichExpected, hm, hp, ht, hgot, hs]
          · simp [enrichExpected, hm, hp, ht]

lemma firstMatchRule_classifier (n : List Char) :
    firstMatchRule classifierRules (1, 1, 1, Confidence.low, "general") n =
      classifyChain n := by
  simp only [classifierRules, firstMatchRule, classifyChain]

lemma primary_three_way (e s c : ℚ) :
    (if e = max e (max s c) then some "encyclopedia"
     else if s = max e (max s c) then some "scripture"
     else if c = max e (max s c) then some "commentary"
     else none) = some (argmaxCategory e s c) := by
  unfold argmaxCategory
  by_cases h1 : e = max e (max s c)
  · rw [if_pos h1, if_pos h1]
  · rw [if_neg h1, if_neg h1]
    by_cases h2 : s = max e (max s c)
    · rw [if_pos h2, if_pos h2]
    · rw [if_neg h2, if_neg h2]
      have h3 : c = max e (max s c) := by
        rcases max_choice e (max s c) with h | h
        · exact absurd h.symm h1
        · rcases max_choice s c with h2' | h2'
          · exact absurd (h.trans h2').symm h2
          · exact (h.trans h2').symm
      rw [if_pos h3]

lemma buildClassification_eq_spec (w : RuleOutcome) :
    buildClassification w =
      (match w with
      | (e, s, c, conf, qt) =>
        { primaryCategory :=
            if conf = Confidence.low then none
            else some (argmaxCategory e s c)
          encyclopedia := e
          scripture := s
          commentary := c
          confidence := conf
          queryType := qt } : QueryClassification) := by
  rcases w with ⟨e, s, c, conf, qt⟩
  rcases conf with _ | _ | _
  · unfold buildClassification
    dsimp only
    rw [if_pos (Or.inl rfl), primary_three_way]
    rw [if_neg (fun h => Confidence.noConfusion h)]
  · unfold buildClassification
    dsimp only
    rw [if_pos (Or.inr rfl), primary_three_way]
    rw [if_neg (fun h => Confidence.noConfusion h)]
  · unfold buildClassification
    dsimp only
    rw [if_neg ?hne, if_pos rfl]
    case hne =>
      rintro (h | h) <;> exact Confidence.noConfusion h

lemma buildClassification_fields (w : RuleOutcome) :
    (buildClassification w).encyclopedia = w.1 ∧
    (buildClassification w).scripture = w.2.1 ∧
    (buildClassification w).commentary = w.2.2.1 ∧
    (buildClassification w).confidence = w.2.2.2.1 := by
  rcases w with ⟨e, s, c, conf, qt⟩
  exact ⟨rfl, rfl, rfl, rfl⟩

lemma classifyChain_low (n : List Char) :
    (classifyChain n).2.2.2.1 = Confidence.low →
      classifyChain n = (1, 1, 1, Confidence.low, "general") := by
  unfold classifyChain
  split_ifs <;> simp

/-- C7: `classify` implements the ordered first-match rule table (equal
weights and low confidence when no rule matches); `primaryCategory` is
non-null exactly when confidence is high or medium and is then the argmax of
the weights, ties broken encyclopedia before scripture before commentary;
and under low confidence all three weights are 1. -/
theorem classify_first_match_spec (q : String) :
    classify q = classifySpec q ∧
    ((classify q).primaryCategory =
      if (classify q).confidence = Confidence.low then none
      else some (argmaxCategory (classify q).encyclopedia
        (classify q).scripture (classify q).commentary)) ∧
    ((classify q).confidence = Confidence.low →
      (classify q).encyclopedia = 1 ∧ (classify q).scripture = 1 ∧
        (classify q).commentary = 1) := by
  have hmain : classify q = classifySpec q := by
    rw [classify, classifySpec, firstMatchRule_classifier,
      buildClassification_eq_spec]
  refine ⟨hmain, ?_, ?_⟩
  · rw [classify, buildClassification_eq_spec]
    rcases hc : classifyChain (lowerTrim q) with ⟨e, s, c, conf, qt⟩
    rcases conf with _ | _ | _ <;> simp
  · intro hlow
    have hfields := buildClassification_fields (classifyChain (lowerTrim q))
    rw [classify, hfields.2.2.2] at hlow
    have hchain := classifyChain_low (lowerTrim q) hlow
    refine ⟨?_, ?_, ?_⟩
    · rw [classify, hfields.1, hchain]
    · rw [classify, hfields.2.1, hchain]
    · rw [classify, hfields.2.2.1, hchain]

/-- C9: a query with no indexable terms once the metacharacters `| & : * !`
are stripped and whitespace trimmed makes `searchKeyword` return the empty
list without issuing a store query (and without raising: the guard returns
normally). -/
theorem searchKeyword_empty_query (query : String) (storeResults : List Doc)
    (h : trimChars (replaceMeta query.data) = []) :
    searchKeyword query storeResults = (false, []) := by
  unfold searchKeyword cleanQuery
  rw [h]
  rfl

/-- Witness for C9 at the concrete query `"|! *:"`, which is all
metacharacters and whitespace. -/
theorem searchKeyword_empty_query_witness :
    searchKeyword "|! *:" [⟨"A", "a", none, none, ""⟩] = (false, []) :=
  searchKeyword_empty_query "|! *:" [⟨"A", "a", none, none, ""⟩] (by decide)

lemma mapSet_length {α : Type} (m : List (String × α)) (k : String) (v : α) :
    (mapSet m k v).length ≤ m.length + 1 := by
  unfold mapSet
  split_ifs
  · rw [List.length_map]
    omega
  · rw [List.length_append]
    simp

lemma mapDelete_length_le {α : Type} (m : List (String × α)) (k : String) :
    (mapDelete m k).length ≤ m.length :=
  List.length_filter_le _ _

lemma mapDelete_head_length {α : Type} (p : String × α)
    (rest : List (String × α)) :
    (mapDelete (p :: rest) p.1).length ≤ rest.length := by
  unfold mapDelete
  rw [List.filter_cons]
  simp only [ne_eq, decide_not]
  rw [if_neg (by simp)]
  exact List.length_filter_le _ _

lemma cacheStep_size (maxSize : ℕ) (ttl : ℤ) (c : CacheState)
    (op : CacheOp) (hm : 1 ≤ maxSize) (h : c.length ≤ maxSize) :
    (cacheStep maxSize ttl c op).length ≤ maxSize := by
  rcases op with ⟨t, now⟩ | ⟨t, emb, now⟩
  · unfold cacheStep cacheGet
    dsimp only
    rcases hg : mapGet c t with _ | e
    · exact h
    · dsimp only
      split_ifs
      · exact le_trans (mapDelete_length_le c t) h
      · exact h
  · unfold cacheStep cacheSet
    dsimp only
    by_cases hfull : maxSize ≤ c.length
    · rw [if_pos hfull]
      rcases c with _ | ⟨p, rest⟩
      · simp only [List.length_nil, Nat.le_zero] at hfull
        omega
      · dsimp only
        refine le_trans (mapSet_length _ t (emb, now)) ?_
        have h2 := mapDelete_head_length p rest
        have hlen : rest.length + 1 ≤ maxSize := by
          simpa using h
        omega
    · rw [if_neg hfull]
      refine le_trans (mapSet_length _ t (emb, now)) ?_
      omega

lemma mapGet_mem {α : Type} :
    ∀ (m : List (String × α)) (k : String) (v : α),
      mapGet m k = some v → (k, v) ∈ m := by
  intro m
  induction m with
  | nil => intro k v h; simp [mapGet] at h
  | cons p rest ih =>
    intro k v h
    by_cases hp : p.1 = k
    · simp only [mapGet, hp, if_true, eq_self_iff_true, Option.some.injEq] at h
      rcases p with ⟨pk, pv⟩
      rcases hp
      rw [← h]
      exact List.mem_cons_self _ _
    · simp only [mapGet, hp, if_false] at h
      exact List.mem_cons_of_mem p (ih k v h)

/-- C10: starting from empty, the embedding cache configured with capacity
1000 and a 60-minute (3,600,000 ms) TTL never holds more than 1000 entries
under any sequence of get/set operations; a `get` only ever returns an
embedding whose entry was stored within the TTL (an expired entry is removed
and null returned instead); and on overflow the oldest (first-inserted)
entry is the one evicted. -/
theorem embeddingCache_bounded_and_ttl :
    (∀ ops : List CacheOp, (runCache 1000 3600000 ops).length ≤ 1000) ∧
    (∀ (c : CacheState) (text : String) (now : ℤ) (emb : List ℚ),
      (cacheGet c 3600000 text now).1 = some emb →
      ∃ ts : ℤ, (text, (emb, ts)) ∈ c ∧ now - ts ≤ 3600000) ∧
    (∀ (p : String × (List ℚ × ℤ)) (rest : CacheState) (t : String)
        (emb : List ℚ) (now : ℤ),
      1000 ≤ (p :: rest).length → ¬ t = p.1 →
      mapGet (cacheSet (p :: rest) 1000 t emb now) p.1 = none) := by
  refine ⟨?_, ?_, ?_⟩
  · intro ops
    suffices hgen : ∀ (l : List CacheOp) (c : CacheState), c.length ≤ 1000 →
        (l.foldl (cacheStep 1000 3600000) c).length ≤ 1000 by
      exact hgen ops [] (by simp)
    intro l
    induction l with
    | nil => intro c hc; simpa using hc
    | cons op ops ih =>
      intro c hc
      rw [List.foldl_cons]
      exact ih _ (cacheStep_size 1000 3600000 c op (by norm_num) hc)
  · intro c text now emb h
    unfold cacheGet at h
    rcases hg : mapGet c text with _ | e
    · rw [hg] at h
      simp at h
    · rw [hg] at h
      dsimp only at h
      split_ifs at h with hexp
      simp only [Option.some.injEq] at h
      refine ⟨e.2, ?_, by omega⟩
      have hm2 := mapGet_mem c text e hg
      rw [← h]
      simpa using hm2
  · intro p rest t emb now hfull hne
    unfold cacheSet
    rw [if_pos (by simpa using hfull)]
    have h1 : mapGet (mapDelete (p :: rest) p.1) p.1 = none := by
      rw [mapGet_eq_none_iff]
      intro hc
      rcases List.mem_map.1 hc with ⟨q, hq, hqfst⟩
      have := List.mem_filter.1 hq
      rw [hqfst] at this
      simpa using this.2
    rw [mapGet_mapSet_ne _ _ _ _ (fun hh => hne hh.symm)]
    exact h1

/-- Witness for C10's TTL conjunct at a concrete one-entry cache: an entry
stored at time 0 and read at time 5 was stored within the TTL. -/
theorem embeddingCache_bounded_and_ttl_witness :
    ∃ ts : ℤ, ("k", (([] : List ℚ), ts)) ∈
      ([("k", (([] : List ℚ), (0 : ℤ)))] : CacheState) ∧
      (5 : ℤ) - ts ≤ 3600000 :=
  embeddingCache_bounded_and_ttl.2.1 [("k", ([], 0))] "k" 5 [] (by decide)

/-- C5: when both search branches return empty lists, fusion yields zero
candidates and `queryKnowledge` returns the empty result list with zero
rerank-gateway invocations and zero enricher invocations. -/
theorem queryKnowledge_empty_short_circuit (cache : CacheState)
    (emb : List ℚ) (now : ℤ) (query : String) (judge : JudgeOutcome)
    (store : Store) (limit : ℕ) :
    queryKnowledge cache (Except.ok emb) now query [] [] judge store limit =
      Except.ok ⟨[], 0, 0⟩ := by
  have hok : ∃ v, generateEmbedding cache (Except.ok emb) now query =
      Except.ok v := by
    simp only [generateEmbedding]
    rcases hcg : cacheGet cache 3600000 (normalizeTextForEmbedding query) now
      with ⟨o, c2⟩
    rcases o with _ | cached
    · exact ⟨_, rfl⟩
    · exact ⟨_, rfl⟩
  rcases hok with ⟨v, hv⟩
  have hrrf : performRRF [] [] (limit * 2) = [] := by
    unfold performRRF rrfScores rrfDocs
    simp
  simp [queryKnowledge, hv, hrrf]

/-- C8: when the normalized query misses the embedding cache and the
embedding provider call fails, `queryKnowledge` propagates that failure to
its caller as an error (never an empty or degraded result list). -/
theorem queryKnowledge_embed_error_propagates (cache : CacheState)
    (e : String) (now : ℤ) (query : String) (vec kw : List Doc)
    (judge : JudgeOutcome) (store : Store) (limit : ℕ)
    (hmiss : (cacheGet cache 3600000 (normalizeTextForEmbedding query)
      now).1 = none) :
    queryKnowledge cache (Except.error e) now query vec kw judge store limit =
      Except.error e := by
  rcases hcg : cacheGet cache 3600000 (normalizeTextForEmbedding query) now
    with ⟨o, c2⟩
  have ho : o = none := by
    rw [hcg] at hmiss
    exact hmiss
  subst ho
  have hge : generateEmbedding cache (Except.error e) now query =
      Except.error e := by
    simp only [generateEmbedding]
    rw [hcg]
  simp [queryKnowledge, hge]

/-- Witness for C8 at the empty cache (a guaranteed miss) and a failing
provider. -/
theorem queryKnowledge_embed_error_propagates_witness :
    queryKnowledge [] (Except.error "quota") 0 "who is arjuna" 
      [⟨"A", "a", none, none, ""⟩] [] JudgeOutcome.throw (fun _ => none) 5 =
      Except.error "quota" :=
  queryKnowledge_embed_error_propagates [] "quota" 0 "who is arjuna"
    [⟨"A", "a", none, none, ""⟩] [] JudgeOutcome.throw (fun _ => none) 5 rfl
